import Mathlib

/-!
Verification of the benchnet server data core, placement scheduler,
node job merge, session framing and node job scheduler against their
natural-language specification.

The Go sources are embedded shallowly: pointer-based in-place mutation
becomes explicit state passing over a `DataState` record, Go slices
become lists, `uint64` becomes `Nat` with explicit wrap-around where it
matters, and code paths that end in a Go runtime panic are modelled by
`Option` (`none` = panic).
-/

namespace srv

/-! ## Sorted-list primitives (srv/data.go)

`jlist`, `nlist` and `jobList` keep their elements sorted by id and use
`sort.Search` (binary search) for lookups.  On a sorted list,
`sort.Search(len(l), fun i => key l[i] ≥ id)` returns the least index
whose key is not below `id`, i.e. the length of the longest prefix of
keys below `id`; the helpers below are written in that form. -/

/-- `index` of srv/data.go: the lower-bound index for `id` in `l`. -/
def lowerIdx (key : α → Nat) (l : List α) (id : Nat) : Nat :=
  (l.takeWhile (fun a => key a < id)).length

/-- `find` of srv/data.go: `i := index id; if i == len || l[i].key != id`
then nil else `l[i]`. -/
def findBy (key : α → Nat) (l : List α) (id : Nat) : Option α :=
  match l.dropWhile (fun a => key a < id) with
  | [] => none
  | b :: _ => if key b = id then some b else none

/-- `doAddNode` / `doAddJob` body: insert at the lower-bound index, or
replace in place when an element with the same key is already there. -/
def upsertBy (key : α → Nat) (l : List α) (a : α) : List α :=
  match l.dropWhile (fun b => key b < key a) with
  | [] => l.takeWhile (fun b => key b < key a) ++ [a]
  | b :: t =>
    if key b = key a then l.takeWhile (fun b => key b < key a) ++ a :: t
    else l.takeWhile (fun b => key b < key a) ++ a :: b :: t

/-- `doRmNode` / `doRmJob` body: remove the element at the lower-bound
index when its key matches, otherwise leave the list alone. -/
def removeBy (key : α → Nat) (l : List α) (id : Nat) : List α :=
  match l.dropWhile (fun b => key b < id) with
  | [] => l
  | b :: t => if key b = id then l.takeWhile (fun b => key b < id) ++ t else l

/-- `(n *node).doAddJob`: unconditional insert at the lower-bound index
(the source performs no duplicate check here). -/
def insertBy (key : α → Nat) (l : List α) (a : α) : List α :=
  l.takeWhile (fun b => key b < key a) ++ a :: l.dropWhile (fun b => key b < key a)

/-- `(n *node).doRmJob`: `i := l.index(id)` followed by
`l = append(l[:i], l[i+1:]...)`.  When `i` is already `len(l)` the slice
expression `l[i+1:]` is out of bounds and Go panics (`none`); otherwise
the element at `i` is removed even when its key differs from `id`.
Returns the removal index together with the shortened list. -/
def removeAtLower (key : α → Nat) (l : List α) (id : Nat) : Option (Nat × List α) :=
  let i := lowerIdx key l id
  if i < l.length then some (i, l.take i ++ l.drop (i + 1)) else none

/-! ## Data model (srv/data.go) -/

/-- `jobDesc`: job description entry of a node's job list. -/
structure jobDesc where
  Id : Nat
  Period : Int
  Start : Int
  Check : List String
deriving DecidableEq, Repr, Inhabited

/-- `job`: the embedded description plus capacity cost and the ids of
nodes running the job.  Go stores the desired replica count as the
capacity of the `nodes` slice; it is carried here as `want`. -/
structure job where
  desc : jobDesc
  capa : Int
  nodes : List Nat
  want : Nat
deriving DecidableEq, Repr, Inhabited

/-- `node`. -/
structure node where
  id : Nat
  lastSeen : Nat
  capa : Int
  used : Int
  loc : Nat
  key : List Nat
  jobs : List jobDesc
deriving DecidableEq, Repr, Inhabited

/-- `result` (check.Result plus the server-side nodeId). -/
structure result where
  JobId : Nat
  Flags : Int
  Start : Int
  RT : Int
  Errs : String
  S : List String
  nodeId : Nat
deriving DecidableEq, Repr, Inhabited

def jobId (j : job) : Nat := j.desc.Id

def descId (d : jobDesc) : Nat := d.Id

def nodeKey (n : node) : Nat := n.id

/-- operation codes of srv/data.go. -/
def opAddLink : Nat := 0
def opRmLink : Nat := 1
def opAddNode : Nat := 2
def opRmNode : Nat := 3
def opAddJob : Nat := 4
def opRmJob : Nat := 5

/-- `dataDiff`: one pending persistent change.  Link diffs carry the two
ids and nil object pointers; AddNode/AddJob diffs carry a deep copy of
the object. -/
structure dataDiff where
  op : Nat
  jobId : Nat
  nodeId : Nat
  j : Option job
  n : Option node
deriving DecidableEq, Repr, Inhabited

/-- The in-memory state owned by the data loop: the two catalogs plus
the pending diff log and pending results. -/
structure DataState where
  jobs : List job
  nodes : List node
  diffs : List dataDiff
  results : List result
deriving DecidableEq, Repr, Inhabited

/-- Update the catalog entry carrying the given id.  The source mutates
the single object found by binary search; on catalogs without duplicate
ids (invariant I1) this is the same entry. -/
def updateBy (key : α → Nat) (l : List α) (id : Nat) (f : α → α) : List α :=
  l.map (fun a => if key a = id then f a else a)

/-! ## doOp (srv/data.go:306-405)

`doOp` receives pointers; every live call site (the management handlers
going through `getNode`/`getJob`, the scheduler, and the cascades inside
`doOp` itself) either passes pointers into the catalogs or passes stub
objects carrying only the id, which `doRmJob` re-resolves.  The state
level embedding therefore addresses catalog entries by id; a mutation
through a pointer that does not alias a catalog entry leaves the state
unchanged. -/

/-- The mutation part of the `opAddLink` case: `r.n.doAddJob(r.j)`.
Inserts the job's description into the node's (sorted) job list with no
duplicate check, appends the node id to the job's node list, and adds
the job's capacity to the node's `used`. -/
def applyAddLink (s : DataState) (jid nid : Nat) : DataState :=
  match findBy jobId s.jobs jid with
  | none => s
  | some j =>
    { s with
      nodes := updateBy nodeKey s.nodes nid (fun n =>
        { n with jobs := insertBy descId n.jobs j.desc, used := n.used + j.capa }),
      jobs := updateBy jobId s.jobs jid (fun j0 =>
        { j0 with nodes := j0.nodes ++ [nid] }) }

/-- The mutation part of the `opRmLink` case: `r.n.doRmJob(r.j)`, which
re-resolves both pointers from the catalogs and returns silently when
either is absent.  On success it removes the element at the lower-bound
index for `jid` from the node's job list (Go panics when that index is
past the end, hence `none`), erases the first occurrence of `nid` from
the job's node list, and subtracts the job's capacity from `used`.
Besides the new state it reports the two removal positions, which the
cascade loops need to mirror Go's in-place slice shifting. -/
def applyRmLinkCore (s : DataState) (jid nid : Nat) :
    Option (DataState × Option Nat × Option Nat) :=
  match findBy nodeKey s.nodes nid, findBy jobId s.jobs jid with
  | some n, some j =>
    match removeAtLower descId n.jobs jid with
    | none => none
    | some (i, njobs) =>
      some ({ s with
        nodes := updateBy nodeKey s.nodes nid (fun n0 =>
          { n0 with jobs := njobs, used := n0.used - j.capa }),
        jobs := updateBy jobId s.jobs jid (fun j0 =>
          { j0 with nodes := j0.nodes.erase nid }) },
        some i,
        if nid ∈ j.nodes then some (j.nodes.findIdx (fun x => x = nid)) else none)
  | _, _ => some (s, none, none)

/-- A link diff entry (`dataDiff{op, jobId, nodeId}` with nil objects). -/
def linkDiff (op jid nid : Nat) : dataDiff :=
  { op := op, jobId := jid, nodeId := nid, j := none, n := none }

/-- The diff-log scan of the link cases: remove the first occurrence of
the opposite op for the pair and stop, stop silently at an existing copy
of the same op, or append at the end. -/
def linkDiffApply (l notl : dataDiff) : List dataDiff → List dataDiff
  | [] => [l]
  | v :: t =>
    if v = notl then t
    else if v = l then v :: t
    else v :: linkDiffApply l notl t

/-- `doOp`, case `opAddLink`. -/
def doAddLinkOp (s : DataState) (jid nid : Nat) : DataState :=
  let s1 := applyAddLink s jid nid
  { s1 with
    diffs := linkDiffApply (linkDiff opAddLink jid nid) (linkDiff opRmLink jid nid) s1.diffs }

/-- `doOp`, case `opRmLink`, with the removal positions exposed for the
cascades. -/
def doRmLinkCore (s : DataState) (jid nid : Nat) :
    Option (DataState × Option Nat × Option Nat) :=
  (applyRmLinkCore s jid nid).map (fun p =>
    ({ p.1 with
       diffs := linkDiffApply (linkDiff opRmLink jid nid) (linkDiff opAddLink jid nid) p.1.diffs },
     p.2.1, p.2.2))

/-- `doOp`, case `opRmLink`. -/
def doRmLinkOp (s : DataState) (jid nid : Nat) : Option DataState :=
  (doRmLinkCore s jid nid).map (fun p => p.1)

/-- The diff-log scan of the `opAddNode`/`opNodeSeen` cases: replace the
node copy inside an existing AddNode diff for the same id and stop, drop
an RmNode diff for the id and keep scanning, or append at the end.  (For
the removal Go shifts the slice in place while ranging over the old
header, which skips the following slot and rescans the final one; with
at most one diff per node id — invariant I8 — that equals this
sequential scan.) -/
def addNodeDiffApply (n : node) : List dataDiff → List dataDiff
  | [] => [{ op := opAddNode, jobId := 0, nodeId := 0, j := none, n := some n }]
  | v :: t =>
    if v.op = opAddNode ∧ v.n.any (fun m => m.id = n.id) then { v with n := some n } :: t
    else if v.op = opRmNode ∧ v.nodeId = n.id then addNodeDiffApply n t
    else v :: addNodeDiffApply n t

/-- The diff-log scan of the `opRmNode` case (both matches stop the
scan). -/
def rmNodeDiffApply (id : Nat) : List dataDiff → List dataDiff
  | [] => [{ op := opRmNode, jobId := 0, nodeId := id, j := none, n := none }]
  | v :: t =>
    if v.op = opRmNode ∧ v.nodeId = id then v :: t
    else if v.op = opAddNode ∧ v.n.any (fun m => m.id = id) then t
    else v :: rmNodeDiffApply id t

/-- The diff-log scan of the `opAddJob` case (same shape as
`addNodeDiffApply`). -/
def addJobDiffApply (j : job) : List dataDiff → List dataDiff
  | [] => [{ op := opAddJob, jobId := 0, nodeId := 0, j := some j, n := none }]
  | v :: t =>
    if v.op = opAddJob ∧ v.j.any (fun j0 => jobId j0 = jobId j) then { v with j := some j } :: t
    else if v.op = opRmJob ∧ v.jobId = jobId j then addJobDiffApply j t
    else v :: addJobDiffApply j t

/-- The diff-log scan of the `opRmJob` case.  Note that the source
compares `v.nodeId` — not `v.jobId` — against the job id in its first
arm (`data.go:394`), which is kept verbatim here. -/
def rmJobDiffApply (id : Nat) : List dataDiff → List dataDiff
  | [] => [{ op := opRmJob, jobId := id, nodeId := 0, j := none, n := none }]
  | v :: t =>
    if v.op = opRmJob ∧ v.nodeId = id then v :: t
    else if v.op = opAddJob ∧ v.j.any (fun j0 => jobId j0 = id) then t
    else v :: rmJobDiffApply id t

/-- `doOp`, case `opAddNode`: `doAddNode(r.n)` then the diff scan. -/
def doAddNodeOp (s : DataState) (n : node) : DataState :=
  let s1 := { s with nodes := upsertBy nodeKey s.nodes n }
  { s1 with diffs := addNodeDiffApply n s1.diffs }

/-- `doOp`, case `opNodeSeen`: update `lastSeen` in place when the node
exists (silent no-op otherwise), then fall through into the AddNode diff
scan. -/
def doNodeSeenOp (s : DataState) (nid last : Nat) : DataState :=
  match findBy nodeKey s.nodes nid with
  | none => s
  | some n0 =>
    let s1 := { s with nodes := updateBy nodeKey s.nodes nid (fun m => { m with lastSeen := last }) }
    { s1 with diffs := addNodeDiffApply { n0 with lastSeen := last } s1.diffs }

/-- `doOp`, case `opAddJob`. -/
def doAddJobOp (s : DataState) (j : job) : DataState :=
  let s1 := { s with jobs := upsertBy jobId s.jobs j }
  { s1 with diffs := addJobDiffApply j s1.diffs }

/-- One shift of a Go backing array of length `L` after
`append(s[:i], s[i+1:l]...)` on the logical prefix of length `l`:
positions `i .. l-2` take the old values of `i+1 .. l-1`, everything
from `l-1` on keeps its old value. -/
def backingShift (B : List α) (i l : Nat) : List α :=
  B.take i ++ (B.drop (i + 1)).take (l - 1 - i) ++ B.drop (l - 1)

/-- The cascade loop of the `opRmNode` case:
`for _, v := range tmpn.jobs { doOp(opRmLink, &job{jobDesc: v}, tmpn) }`.
Go's range evaluates the slice header once, but each `doRmJob` shifts
the same backing array in place; `B` tracks the backing array (of fixed
original length, iterated by the counter) while the node's live job list
inside `s` is its logical prefix. -/
def rmNodeCascade (nid : Nat) : Nat → Nat → List jobDesc → DataState → Option DataState
  | _, 0, _, s => some s
  | k, rest + 1, B, s =>
    let v := B.getD k default
    let l := ((findBy nodeKey s.nodes nid).map (fun n => n.jobs.length)).getD 0
    match doRmLinkCore s v.Id nid with
    | none => none
    | some (s1, some i, _) => rmNodeCascade nid (k + 1) rest (backingShift B i l) s1
    | some (s1, none, _) => rmNodeCascade nid (k + 1) rest B s1

/-- `doOp`, case `opRmNode`: `tmpn := nodes.find(r.n.id)` is dereferenced
with no nil check (`for _, v := range tmpn.jobs`), so an id absent from
the catalog is a Go nil-pointer panic (`none`).  Otherwise the cascade
removes the node's links, `doRmNode` drops it from the catalog, and the
diff scan runs. -/
def doRmNodeOp (s : DataState) (nid : Nat) : Option DataState :=
  match findBy nodeKey s.nodes nid with
  | none => none
  | some n =>
    match rmNodeCascade nid 0 n.jobs.length n.jobs s with
    | none => none
    | some s1 =>
      let s2 := { s1 with nodes := removeBy nodeKey s1.nodes nid }
      some { s2 with diffs := rmNodeDiffApply nid s2.diffs }

/-- The cascade loop of the `opRmJob` case, ranging over the job's node
list with the same in-place shifting as `rmNodeCascade`. -/
def rmJobCascade (jid : Nat) : Nat → Nat → List Nat → DataState → Option DataState
  | _, 0, _, s => some s
  | k, rest + 1, B, s =>
    let v := B.getD k 0
    let l := ((findBy jobId s.jobs jid).map (fun j => j.nodes.length)).getD 0
    match doRmLinkCore s jid v with
    | none => none
    | some (s1, _, some i) => rmJobCascade jid (k + 1) rest (backingShift B i l) s1
    | some (s1, _, none) => rmJobCascade jid (k + 1) rest B s1

/-- `doOp`, case `opRmJob`: `tmpj := jobs.find(r.j.Id)` is dereferenced
with no nil check, so an absent id is a Go nil-pointer panic. -/
def doRmJobOp (s : DataState) (jid : Nat) : Option DataState :=
  match findBy jobId s.jobs jid with
  | none => none
  | some j =>
    match rmJobCascade jid 0 j.nodes.length j.nodes s with
    | none => none
    | some s1 =>
      let s2 := { s1 with jobs := removeBy jobId s1.jobs jid }
      some { s2 with diffs := rmJobDiffApply jid s2.diffs }

/-- An `opRequest`.  Go passes object pointers; the remove and link
requests only consult the ids, which is what the constructors carry. -/
inductive Op where
  | addLink (jid nid : Nat)
  | rmLink (jid nid : Nat)
  | addNode (n : node)
  | rmNode (nid : Nat)
  | addJob (j : job)
  | rmJob (jid : Nat)
  | nodeSeen (nid last : Nat)
  | addResults (r : List result)
deriving DecidableEq, Repr

/-- `doOp` (srv/data.go:306).  `none` models a Go runtime panic, which
the data loop recovers from and then shuts down. -/
def doOp (s : DataState) : Op → Option DataState
  | .addLink jid nid => some (doAddLinkOp s jid nid)
  | .rmLink jid nid => doRmLinkOp s jid nid
  | .addNode n => some (doAddNodeOp s n)
  | .rmNode nid => doRmNodeOp s nid
  | .addJob j => some (doAddJobOp s j)
  | .rmJob jid => doRmJobOp s jid
  | .nodeSeen nid last => some (doNodeSeenOp s nid last)
  | .addResults r => some { s with results := s.results ++ r }

/-- A sequence of operations fed to the data loop, stopping at the first
panic. -/
def runOps (s : DataState) : List Op → Option DataState
  | [] => some s
  | o :: t =>
    match doOp s o with
    | none => none
    | some s1 => runOps s1 t

/-! ## The in-memory invariants I1-I6 (spec section 3) -/

/-- A node's job list is sorted by id with no duplicates. -/
def descSorted (l : List jobDesc) : Prop := l.Pairwise (fun a b => a.Id < b.Id)

/-- I1: both catalogs are sorted by id with no duplicates. -/
def I1 (s : DataState) : Prop :=
  s.jobs.Pairwise (fun a b => jobId a < jobId b) ∧
  s.nodes.Pairwise (fun a b => a.id < b.id)

/-- I2: every node's job list is sorted by job id with no duplicates. -/
def I2 (s : DataState) : Prop := ∀ n ∈ s.nodes, descSorted n.jobs

/-- The capacity cost of the catalog job with the given id. -/
def capaOf (s : DataState) (id : Nat) : Int :=
  ((findBy jobId s.jobs id).map job.capa).getD 0

/-- I3: `n.used` is the sum of `j.capa` over the jobs in `n.jobs`. -/
def I3 (s : DataState) : Prop :=
  ∀ n ∈ s.nodes, n.used = (n.jobs.map (fun d => capaOf s d.Id)).sum

/-- I4, one direction: a job listed on a node exists in the catalog and
lists the node back. -/
def I4a (s : DataState) : Prop :=
  ∀ n ∈ s.nodes, ∀ d ∈ n.jobs, ∃ j ∈ s.jobs, jobId j = d.Id ∧ n.id ∈ j.nodes

/-- I4, other direction: a node listed on a job exists in the catalog
and lists the job back. -/
def I4b (s : DataState) : Prop :=
  ∀ j ∈ s.jobs, ∀ nid ∈ j.nodes, ∃ n ∈ s.nodes, n.id = nid ∧ ∃ d ∈ n.jobs, d.Id = jobId j

/-- I5: no job exceeds its desired replica count (`cap(j.nodes)`). -/
def I5 (s : DataState) : Prop := ∀ j ∈ s.jobs, j.nodes.length ≤ j.want

/-- I6, as a state property: no node's `used` exceeds its capacity. -/
def I6s (s : DataState) : Prop := ∀ n ∈ s.nodes, n.used ≤ n.capa

/-- Bookkeeping facts the other invariants rest on: job node lists hold
no duplicates and capacity costs are non-negative. -/
def InvAux (s : DataState) : Prop := ∀ j ∈ s.jobs, j.nodes.Nodup ∧ 0 ≤ j.capa

/-- All in-memory invariants together. -/
def Inv (s : DataState) : Prop :=
  I1 s ∧ I2 s ∧ I3 s ∧ I4a s ∧ I4b s ∧ I5 s ∧ I6s s ∧ InvAux s

def emptyState : DataState := { jobs := [], nodes := [], diffs := [], results := [] }

instance (l : List jobDesc) : Decidable (descSorted l) := by unfold descSorted; infer_instance

instance (s : DataState) : Decidable (I1 s) := by unfold I1; infer_instance

instance (s : DataState) : Decidable (I2 s) := by unfold I2; infer_instance

instance (s : DataState) : Decidable (I3 s) := by unfold I3; infer_instance

instance (s : DataState) : Decidable (I4a s) := by unfold I4a; infer_instance

instance (s : DataState) : Decidable (I4b s) := by unfold I4b; infer_instance

instance (s : DataState) : Decidable (I5 s) := by unfold I5; infer_instance

instance (s : DataState) : Decidable (I6s s) := by unfold I6s; infer_instance

instance (s : DataState) : Decidable (InvAux s) := by unfold InvAux; infer_instance

instance (s : DataState) : Decidable (Inv s) := by unfold Inv; infer_instance

/-! ## Placement scheduler (srv/data.go:412-469)

`schedule` walks a pseudo-random permutation of the node list
round-robin, placing at most one job per node visit; all reads go
through the catalog pointers, embedded here as id lookups against the
current state.  The permutation and a fuel bound for the outer retry
loop are parameters; the theorems hold for every choice of both. -/

/-- `j.in(l)`: binary search membership test (`index` plus a bounds and
id check). -/
def descIn (l : List jobDesc) (id : Nat) : Bool :=
  match l.dropWhile (fun d => d.Id < id) with
  | [] => false
  | d :: _ => d.Id = id

/-- `runnable`: the job wants to run more times (`len(j.nodes) <
cap(j.nodes)`). -/
def runnableS (s : DataState) (jid : Nat) : Bool :=
  match findBy jobId s.jobs jid with
  | none => false
  | some j => j.nodes.length < j.want

/-- `canRun`: `j.capa <= n.capa-n.used && !j.in(n.jobs)`. -/
def canRunS (s : DataState) (nid jid : Nat) : Bool :=
  match findBy jobId s.jobs jid, findBy nodeKey s.nodes nid with
  | some j, some n => decide (j.capa ≤ n.capa - n.used) && !descIn n.jobs jid
  | _, _ => false

/-- `for !cand[0].runnable() { cand = cand[1:]; if len(cand) == 0 {
return } }`: drop unrunnable jobs from the head of the candidate window;
`none` = the window emptied and `schedule` returns. -/
def dropUnrunnable (s : DataState) : List Nat → Option (List Nat)
  | [] => none
  | jid :: t => if runnableS s jid then some (jid :: t) else dropUnrunnable s t

/-- The scan of the inner `for _, v := range cand`: the first candidate
that is runnable and fits on the node. -/
def firstPlaceable (s : DataState) (nid : Nat) : List Nat → Option Nat
  | [] => none
  | v :: t => if runnableS s v && canRunS s nid v then some v else firstPlaceable s nid t

/-- One pass of `for i, n := range tmpnodes`, starting at index `i` with
the window `cand` and the last-modified index `lastmod` (`none` = -1).
`Sum.inl` is an early return out of `schedule` (the `i == lastmod` stop,
or an emptied window after a placement); `Sum.inr` hands the state,
window and `lastmod` to the next round of the outer loop. -/
def schedPass (s : DataState) (cand : List Nat) (lastmod : Option Nat) :
    List Nat → Nat → Sum DataState (DataState × List Nat × Option Nat)
  | [], _ => Sum.inr (s, cand, lastmod)
  | nid :: rest, i =>
    if lastmod = some i then Sum.inl s
    else
      match firstPlaceable s nid cand with
      | none => schedPass s cand lastmod rest (i + 1)
      | some v =>
        let s1 := doAddLinkOp s v nid
        match dropUnrunnable s1 cand with
        | none => Sum.inl s1
        | some cand1 => schedPass s1 cand1 (some i) rest (i + 1)

/-- The outer `for {}` of `schedule`: run passes until one returns
early or completes without any placement ever happening (`lastmod ==
-1`).  The source's loop terminates; the structural fuel only bounds the
number of passes and every theorem below holds for all fuels. -/
def schedLoop (tmpnodes : List Nat) : Nat → DataState → List Nat → Option Nat → DataState
  | 0, s, _, _ => s
  | fuel + 1, s, cand, lastmod =>
    match schedPass s cand lastmod tmpnodes 0 with
    | Sum.inl s1 => s1
    | Sum.inr (s1, cand1, lastmod1) =>
      if lastmod1 = none then s1
      else schedLoop tmpnodes fuel s1 cand1 lastmod1

/-- `schedule` (srv/data.go:424-469): return at once when either
catalog is empty, drop unrunnable jobs from the head of the candidate
window, then run the round-robin passes over the permuted nodes. -/
def schedule (s : DataState) (tmpnodes : List Nat) (fuel : Nat) : DataState :=
  if s.nodes.length = 0 ∨ s.jobs.length = 0 then s
  else
    match dropUnrunnable s (s.jobs.map jobId) with
    | none => s
    | some cand => schedLoop tmpnodes fuel s cand none

/-! ## Management surface: the `node` command (part_007:87-125) -/

/-- Unsigned decimal digits to a number (`none` on empty input or a
non-digit). -/
def digitsToNat : List Char → Option Nat
  | [] => none
  | l =>
    if l.all Char.isDigit then some (l.foldl (fun a c => 10 * a + (c.toNat - 48)) 0)
    else none

/-- `strconv.ParseUint(s, 0, 64)` on plain decimal input (base 0 also
accepts prefixed forms, which no claim exercises). -/
def parseUint64 (s : String) : Option Nat :=
  match digitsToNat s.toList with
  | some v => if v < 2 ^ 64 then some v else none
  | none => none

/-- `strconv.ParseInt(s, 0, 32)` on plain decimal input. -/
def parseInt32 (s : String) : Option Int :=
  match s.toList with
  | '-' :: t =>
    match digitsToNat t with
    | some v => if (v : Int) ≤ 2 ^ 31 then some (-(v : Int)) else none
    | none => none
  | l =>
    match digitsToNat l with
    | some v => if (v : Int) < 2 ^ 31 then some (v : Int) else none
    | none => none

def isHexDigit (c : Char) : Bool :=
  c.isDigit || ('a' ≤ c && c ≤ 'f') || ('A' ≤ c && c ≤ 'F')

/-- the `netKeyRE` test: exactly 64 hexadecimal digits. -/
def isHexKey (s : String) : Bool :=
  s.length = 64 && s.toList.all isHexDigit

def hexVal (c : Char) : Nat :=
  if c.isDigit then c.toNat - 48 else if c ≤ 'F' then c.toNat - 55 else c.toNat - 87

/-- `fmt.Sscanf(arg, "%x", n.key)`: decode hex pairs into bytes. -/
def decodeHex : List Char → List Nat
  | a :: b :: t => (16 * hexVal a + hexVal b) :: decodeHex t
  | _ => []

/-- `mgmtAddNode` of the current management surface (part_007:87-125).
`rand` models `crypto/rand.Reader`; the result is the reply code, the
reply text and the new state, with `none` for a Go runtime panic; the
error texts of the parse branches are abbreviated to the empty string.
Two details of the source are kept verbatim: the key branches test
`len(args) == 4` for the random-key path — so a supplied key argument is
ignored and the keyless 3-argument form evaluates `args[3]` — and the
duplicate check calls `getJob`, not `getNode`. -/
def mgmtAddNode (args : List String) (rand : List Nat) (s : DataState) :
    Option (Nat × String × DataState) :=
  if args.length < 3 ∨ args.length > 4 then some (501, "invalid syntax", s)
  else
    match parseUint64 (args.getD 0 "") with
    | none => some (501, "", s)
    | some id =>
      match parseInt32 (args.getD 1 "") with
      | none => some (501, "", s)
      | some capa =>
        match parseUint64 (args.getD 2 "") with
        | none => some (501, "", s)
        | some loc =>
          match
            (if args.length = 4 then
              if 32 ≤ rand.length then some (some (rand.take 32)) else some none
            else
              match args[3]? with
              | none => none
              | some a =>
                if isHexKey a then some (some (decodeHex a.toList)) else some none) with
          | none => none
          | some none => some (501, "", s)
          | some (some key) =>
            if (findBy jobId s.jobs id).isSome then some (550, "node already exists", s)
            else
              some (200, "ok", doAddNodeOp s
                { id := id, lastSeen := 0, capa := capa, used := 0, loc := loc,
                  key := key, jobs := [] })

/-! ## C1: the counterexample -/

def c1Node : node :=
  { id := 1, lastSeen := 0, capa := 10, used := 0, loc := 0, key := [], jobs := [] }

def c1Job : job :=
  { desc := { Id := 1, Period := 60, Start := 0, Check := [] }, capa := 3, nodes := [], want := 2 }

/-- AddNode, AddJob, AddLink, then AddNode replacing the now linked
node with a fresh record. -/
def c1Ops : List Op := [.addNode c1Node, .addJob c1Job, .addLink 1 1, .addNode c1Node]

def c1Run : Option DataState := runOps emptyState c1Ops

/-- C1 (counterexample): starting from the empty state — which satisfies
the invariants — the sequence AddNode(1), AddJob(1), AddLink(1,1),
AddNode(1) keeps the invariants up to the last step, but the final
AddNode replaces the linked node record in place (`doAddNode`,
srv/data.go:243-250) without unlinking it, leaving node 1 inside job 1's
node list while the fresh node record lists no jobs: I4 fails after that
operation. -/
theorem doOp_addNode_replace_breaks_I4 :
    Inv emptyState ∧
    Inv ((runOps emptyState (c1Ops.take 3)).getD emptyState) ∧
    c1Run = some (c1Run.getD emptyState) ∧
    ¬ I4b (c1Run.getD emptyState) := by decide

/-! ## C6: removal requests for absent ids -/

/-- A state holding one node and one job, both with id 2 and no links. -/
def c6State : DataState :=
  { jobs := [{ desc := { Id := 2, Period := 60, Start := 0, Check := [] },
               capa := 1, nodes := [], want := 1 }],
    nodes := [{ id := 2, lastSeen := 0, capa := 5, used := 0, loc := 0, key := [], jobs := [] }],
    diffs := [], results := [] }

/-- C6: the claim says an RmNode (or RmJob) request for an id not in the
catalog is a silent no-op that leaves the loop running.  In the code the
`opRmNode` case dereferences `nodes.find(r.n.id)` with no nil check
(`for _, v := range tmpn.jobs`, srv/data.go:351-352), and `opRmJob` does
the same with `jobs.find` (srv/data.go:383-384), so both requests end in
a Go nil-pointer panic — modelled as `none` — after which the recover
handler logs at crit and the data loop exits. -/
theorem doOp_rm_absent_panics :
    doOp c6State (Op.rmNode 1) = none ∧
    doOp c6State (Op.rmJob 1) = none ∧
    Inv c6State := by decide

/-! ## C5: schedule preserves I1, I5 and I6 -/

theorem findBy_mem {key : α → Nat} {l : List α} {id : Nat} {a : α}
    (h : findBy key l id = some a) : a ∈ l ∧ key a = id := by
  unfold findBy at h
  cases hd : l.dropWhile (fun b => key b < id) with
  | nil => rw [hd] at h; cases h
  | cons b t =>
    rw [hd] at h
    dsimp only at h
    by_cases hk : key b = id
    · rw [if_pos hk] at h
      cases h
      refine ⟨?_, hk⟩
      have hsplit := List.takeWhile_append_dropWhile
        (p := fun b => decide (key b < id)) (l := l)
      rw [← hsplit, hd]
      exact List.mem_append_right _ (List.mem_cons_self _ _)
    · rw [if_neg hk] at h
      cases h

/-- On a strictly key-sorted list the key determines the element. -/
theorem pairwise_key_inj {key : α → Nat} : ∀ {l : List α},
    l.Pairwise (fun a b => key a < key b) →
    ∀ a ∈ l, ∀ b ∈ l, key a = key b → a = b
  | [], _, a, ha, _, _, _ => absurd ha (by simp)
  | x :: t, hp, a, ha, b, hb, hk => by
    rw [List.pairwise_cons] at hp
    cases List.mem_cons.mp ha with
    | inl h1 =>
      cases List.mem_cons.mp hb with
      | inl h2 => rw [h1, h2]
      | inr h2 => exact absurd hk (by rw [h1]; have := hp.1 b h2; omega)
    | inr h1 =>
      cases List.mem_cons.mp hb with
      | inl h2 => exact absurd hk (by rw [h2]; have := hp.1 a h1; omega)
      | inr h2 => exact pairwise_key_inj hp.2 a h1 b h2 hk

theorem mem_updateBy {key : α → Nat} {l : List α} {id : Nat} {f : α → α} {x : α} :
    x ∈ updateBy key l id f ↔ ∃ a ∈ l, x = if key a = id then f a else a := by
  simp only [updateBy, List.mem_map]
  constructor
  · rintro ⟨a, ha, rfl⟩; exact ⟨a, ha, rfl⟩
  · rintro ⟨a, ha, rfl⟩; exact ⟨a, ha, rfl⟩

theorem updateBy_pairwise {key : α → Nat} {l : List α} {id : Nat} {f : α → α}
    (hkey : ∀ a, key (f a) = key a)
    (hp : l.Pairwise (fun a b => key a < key b)) :
    (updateBy key l id f).Pairwise (fun a b => key a < key b) := by
  unfold updateBy
  rw [List.pairwise_map]
  exact hp.imp (fun {a b} h => by
    by_cases ha : key a = id <;> by_cases hb : key b = id <;> simp [ha, hb, hkey] <;> omega)

theorem runnableS_spec {s : DataState} {jid : Nat} (h : runnableS s jid = true) :
    ∃ j, findBy jobId s.jobs jid = some j ∧ j.nodes.length < j.want := by
  unfold runnableS at h
  cases hf : findBy jobId s.jobs jid with
  | none => rw [hf] at h; cases h
  | some j => rw [hf] at h; exact ⟨j, rfl, by simpa using h⟩

theorem canRunS_spec {s : DataState} {nid jid : Nat} (h : canRunS s nid jid = true) :
    ∃ j n, findBy jobId s.jobs jid = some j ∧ findBy nodeKey s.nodes nid = some n ∧
      j.capa ≤ n.capa - n.used := by
  unfold canRunS at h
  cases hf : findBy jobId s.jobs jid with
  | none => rw [hf] at h; cases h
  | some j =>
    cases hg : findBy nodeKey s.nodes nid with
    | none => rw [hf, hg] at h; cases h
    | some n =>
      rw [hf, hg] at h
      simp only [Bool.and_eq_true, decide_eq_true_eq] at h
      exact ⟨j, n, rfl, rfl, h.1⟩

/-- The guarded link addition of the scheduler preserves I1, I5 and
I6. -/
theorem doAddLinkOp_inv {s : DataState} {jid nid : Nat}
    (hr : runnableS s jid = true) (hc : canRunS s nid jid = true)
    (h1 : I1 s) (h5 : I5 s) (h6 : I6s s) :
    I1 (doAddLinkOp s jid nid) ∧ I5 (doAddLinkOp s jid nid) ∧ I6s (doAddLinkOp s jid nid) := by
  obtain ⟨j0, hj, hlen⟩ := runnableS_spec hr
  obtain ⟨j2, n2, hj2, hn2, hcapa⟩ := canRunS_spec hc
  have hje : j2 = j0 := by
    rw [hj] at hj2
    exact (Option.some.inj hj2).symm
  subst hje
  have hjobs : (doAddLinkOp s jid nid).jobs =
      updateBy jobId s.jobs jid (fun a => { a with nodes := a.nodes ++ [nid] }) := by
    simp only [doAddLinkOp, applyAddLink, hj]
  have hnodes : (doAddLinkOp s jid nid).nodes =
      updateBy nodeKey s.nodes nid (fun a =>
        { a with jobs := insertBy descId a.jobs j2.desc, used := a.used + j2.capa }) := by
    simp only [doAddLinkOp, applyAddLink, hj]
  obtain ⟨hjmem, hjkey⟩ := findBy_mem hj
  obtain ⟨hnmem, hnkey⟩ := findBy_mem hn2
  simp only [I1, I5, I6s] at h1 h5 h6 ⊢
  refine ⟨⟨?_, ?_⟩, ?_, ?_⟩
  · rw [hjobs]; exact updateBy_pairwise (fun a => rfl) h1.1
  · rw [hnodes]; exact updateBy_pairwise (fun a => rfl) h1.2
  · rw [hjobs]
    intro x hx
    rcases mem_updateBy.mp hx with ⟨a, ha, rfl⟩
    by_cases hk : jobId a = jid
    · have haj : a = j2 := pairwise_key_inj h1.1 a ha j2 hjmem (hk.trans hjkey.symm)
      subst haj
      simp only [if_pos hk, List.length_append]
      simpa using Nat.succ_le_of_lt hlen
    · simpa [if_neg hk] using h5 a ha
  · rw [hnodes]
    intro x hx
    rcases mem_updateBy.mp hx with ⟨a, ha, rfl⟩
    by_cases hk : nodeKey a = nid
    · have han : a = n2 := pairwise_key_inj h1.2 a ha n2 hnmem (hk.trans hnkey.symm)
      rw [han] at hk
      have h6n := h6 n2 hnmem
      simp only [han, if_pos hk]
      omega
    · simpa [if_neg hk] using h6 a ha

theorem firstPlaceable_spec {s : DataState} {nid : Nat} :
    ∀ {cand v}, firstPlaceable s nid cand = some v →
      runnableS s v = true ∧ canRunS s nid v = true := by
  intro cand
  induction cand with
  | nil => intro v h; cases h
  | cons w t ih =>
    intro v h
    unfold firstPlaceable at h
    by_cases hg : runnableS s w && canRunS s nid w
    · rw [if_pos hg] at h
      cases h
      simpa [Bool.and_eq_true] using hg
    · rw [if_neg hg] at h
      exact ih h

/-- I1, I5 and I6 bundled; `passInv` reads it off either outcome of a
pass. -/
def Inv156 (s : DataState) : Prop := I1 s ∧ I5 s ∧ I6s s

def passInv : Sum DataState (DataState × List Nat × Option Nat) → Prop
  | .inl s1 => Inv156 s1
  | .inr (s1, _, _) => Inv156 s1

theorem schedPass_inv (tmp : List Nat) :
    ∀ (i : Nat) (s : DataState) (cand : List Nat) (lastmod : Option Nat),
      Inv156 s → passInv (schedPass s cand lastmod tmp i) := by
  induction tmp with
  | nil => intro i s cand lastmod h; exact h
  | cons nid rest ih =>
    intro i s cand lastmod h
    unfold schedPass
    by_cases hstop : lastmod = some i
    · rw [if_pos hstop]; exact h
    · rw [if_neg hstop]
      cases hfp : firstPlaceable s nid cand with
      | none => exact ih (i + 1) s cand lastmod h
      | some v =>
        obtain ⟨hr, hc⟩ := firstPlaceable_spec hfp
        have h2 : Inv156 (doAddLinkOp s v nid) := by
          obtain ⟨h1, h5, h6⟩ := h
          exact doAddLinkOp_inv hr hc h1 h5 h6
        dsimp only
        cases hdw : dropUnrunnable (doAddLinkOp s v nid) cand with
        | none => exact h2
        | some cand1 => exact ih (i + 1) (doAddLinkOp s v nid) cand1 (some i) h2

theorem schedLoop_inv {tmp : List Nat} :
    ∀ {fuel : Nat} {s : DataState} {cand : List Nat} {lastmod : Option Nat},
      Inv156 s → Inv156 (schedLoop tmp fuel s cand lastmod) := by
  intro fuel
  induction fuel with
  | zero => intro s cand lastmod h; exact h
  | succ fuel ih =>
    intro s cand lastmod h
    unfold schedLoop
    have hpass := schedPass_inv tmp 0 s cand lastmod h
    cases hsp : schedPass s cand lastmod tmp 0 with
    | inl s1 =>
      rw [hsp] at hpass
      exact hpass
    | inr r =>
      rw [hsp] at hpass
      obtain ⟨s1, cand1, lastmod1⟩ := r
      dsimp only
      by_cases hlm : lastmod1 = none
      · rw [if_pos hlm]
        exact hpass
      · rw [if_neg hlm]
        exact ih hpass

/-- C5: a `schedule` run — for every permutation of the nodes and every
bound on the outer loop — only adds links through `n.addJob(v)` guarded
by `v.runnable() && n.canRun(v)`, so it preserves the catalog ordering
I1 and never violates I5 or I6: after any run every job still has at
most `want` replicas and no node's `used` exceeds its `capa`. -/
theorem schedule_preserves_I5_I6 (s : DataState) (tmpnodes : List Nat) (fuel : Nat)
    (h1 : I1 s) (h5 : I5 s) (h6 : I6s s) :
    I1 (schedule s tmpnodes fuel) ∧ I5 (schedule s tmpnodes fuel) ∧
      I6s (schedule s tmpnodes fuel) := by
  unfold schedule
  by_cases hempty : s.nodes.length = 0 ∨ s.jobs.length = 0
  · rw [if_pos hempty]; exact ⟨h1, h5, h6⟩
  · rw [if_neg hempty]
    cases hdw : dropUnrunnable s (s.jobs.map jobId) with
    | none => exact ⟨h1, h5, h6⟩
    | some cand => exact schedLoop_inv ⟨h1, h5, h6⟩

def c5Init : DataState :=
  { jobs := [{ desc := { Id := 1, Period := 60, Start := 0, Check := [] },
               capa := 3, nodes := [], want := 2 }],
    nodes := [{ id := 7, lastSeen := 0, capa := 10, used := 0, loc := 0, key := [],
                jobs := [] }],
    diffs := [], results := [] }

/-- C5 (witness): spec scenario 2 — one node of capacity 10, one job of
cost 3 wanting two replicas; the invariants hold before and, applying
the theorem, after the run (which places the job once). -/
theorem schedule_preserves_I5_I6_witness :
    (I1 c5Init ∧ I5 c5Init ∧ I6s c5Init) ∧
    (I1 (schedule c5Init [7] 5) ∧ I5 (schedule c5Init [7] 5) ∧ I6s (schedule c5Init [7] 5)) ∧
    (schedule c5Init [7] 5).jobs.map job.nodes = [[7]] ∧
    (schedule c5Init [7] 5).nodes.map node.used = [3] :=
  ⟨⟨by decide, by decide, by decide⟩,
   schedule_preserves_I5_I6 c5Init [7] 5 (by decide) (by decide) (by decide),
   by decide, by decide⟩

/-! ## C4: diff-log coalescing of alternating link operations -/

theorem findBy_map_keypres {key : α → Nat} {g : α → α}
    (hkey : ∀ a, key (g a) = key a) (l : List α) (id : Nat) :
    findBy key (l.map g) id = (findBy key l id).map g := by
  unfold findBy
  rw [List.dropWhile_map]
  have hpe : ((fun b => decide (key b < id)) ∘ g) = (fun b => decide (key b < id)) := by
    funext a; simp [hkey]
  rw [hpe]
  cases l.dropWhile (fun b => decide (key b < id)) with
  | nil => simp
  | cons b t => simp [hkey]

theorem findBy_updateBy {key : α → Nat} {f : α → α}
    (hkey : ∀ a, key (f a) = key a) (l : List α) (id id2 : Nat) :
    findBy key (updateBy key l id f) id2 =
      (findBy key l id2).map (fun a => if key a = id then f a else a) := by
  unfold updateBy
  exact findBy_map_keypres (fun a => by by_cases h : key a = id <;> simp [h, hkey]) l id2

theorem dropWhile_ge {key : α → Nat} {c : Nat} : ∀ {l : List α},
    l.Pairwise (fun x y => key x < key y) →
    ∀ y ∈ l.dropWhile (fun b => decide (key b < c)), c ≤ key y
  | [], _, y, hy => absurd hy (by simp)
  | x :: t, hp, y, hy => by
    rw [List.pairwise_cons] at hp
    rw [List.dropWhile_cons] at hy
    by_cases hx : key x < c
    · rw [if_pos (by simpa using hx)] at hy
      exact dropWhile_ge hp.2 y hy
    · rw [if_neg (by simpa using hx)] at hy
      cases List.mem_cons.mp hy with
      | inl h => rw [h]; omega
      | inr h => have := hp.1 y h; omega

/-- On a strictly sorted list a present key splits the list at the
lower bound, with the matching element first after the prefix. -/
theorem sorted_split {key : α → Nat} {id : Nat} : ∀ {l : List α},
    l.Pairwise (fun x y => key x < key y) → id ∈ l.map key →
    ∃ e B, l.dropWhile (fun b => decide (key b < id)) = e :: B ∧ key e = id
  | [], _, hm => absurd hm (by simp)
  | x :: t, hp, hm => by
    rw [List.pairwise_cons] at hp
    rw [List.dropWhile_cons]
    by_cases hx : key x < id
    · rw [if_pos (by simpa using hx)]
      refine sorted_split hp.2 ?_
      rcases (by simpa using hm : id = key x ∨ id ∈ t.map key) with h | h
      · omega
      · exact h
    · rw [if_neg (by simpa using hx)]
      refine ⟨x, t, rfl, ?_⟩
      rcases (by simpa using hm : id = key x ∨ id ∈ t.map key) with h | h
      · omega
      · rcases List.mem_map.mp h with ⟨y, hy, hky⟩
        have := hp.1 y hy
        omega

/-- `insertBy` keeps a strictly sorted list strictly sorted when the key
is not yet present. -/
theorem insertBy_pairwise {key : α → Nat} {l : List α} {a : α}
    (hp : l.Pairwise (fun x y => key x < key y)) (hnot : key a ∉ l.map key) :
    (insertBy key l a).Pairwise (fun x y => key x < key y) := by
  unfold insertBy
  rw [List.pairwise_append]
  refine ⟨hp.sublist (List.takeWhile_sublist _), ?_, ?_⟩
  · rw [List.pairwise_cons]
    refine ⟨?_, hp.sublist (List.dropWhile_sublist _)⟩
    intro y hy
    have hge := dropWhile_ge (c := key a) hp y hy
    have hne : key y ≠ key a := by
      intro he
      exact hnot (List.mem_map.mpr ⟨y, (List.dropWhile_sublist _).subset hy, he⟩)
    omega
  · intro x hx y hy
    have hlt : key x < key a := by simpa using List.mem_takeWhile_imp hx
    cases List.mem_cons.mp hy with
    | inl h => rw [h]; exact hlt
    | inr h =>
      have := dropWhile_ge (c := key a) hp y h
      omega

theorem mem_map_insertBy {key : α → Nat} {l : List α} {a : α} {id : Nat} :
    id ∈ (insertBy key l a).map key ↔ id = key a ∨ id ∈ l.map key := by
  unfold insertBy
  constructor
  · intro h
    rcases List.mem_map.mp h with ⟨y, hy, hky⟩
    rcases List.mem_append.mp hy with hy | hy
    · exact Or.inr (List.mem_map.mpr ⟨y, (List.takeWhile_sublist _).subset hy, hky⟩)
    · rcases List.mem_cons.mp hy with h2 | h2
      · rw [h2] at hky; exact Or.inl hky.symm
      · exact Or.inr (List.mem_map.mpr ⟨y, (List.dropWhile_sublist _).subset h2, hky⟩)
  · intro h
    rcases h with h | h
    · exact List.mem_map.mpr ⟨a, List.mem_append_right _ (List.mem_cons_self _ _), h.symm⟩
    · rcases List.mem_map.mp h with ⟨y, hy, hky⟩
      refine List.mem_map.mpr ⟨y, ?_, hky⟩
      have hsplit := List.takeWhile_append_dropWhile
        (p := fun b => decide (key b < key a)) (l := l)
      rw [← hsplit] at hy
      rcases List.mem_append.mp hy with hy | hy
      · exact List.mem_append_left _ hy
      · exact List.mem_append_right _ (List.mem_cons_of_mem _ hy)

/-- On a strictly sorted list holding the key, `removeAtLower` removes
exactly the matching element: no panic, the result is the list around
it. -/
theorem removeAtLower_of_mem {key : α → Nat} {l : List α} {id : Nat}
    (hp : l.Pairwise (fun x y => key x < key y)) (hm : id ∈ l.map key) :
    ∃ e B, l.dropWhile (fun b => decide (key b < id)) = e :: B ∧ key e = id ∧
      removeAtLower key l id =
        some (lowerIdx key l id, l.takeWhile (fun b => decide (key b < id)) ++ B) := by
  obtain ⟨e, B, hd, hk⟩ := sorted_split hp hm
  refine ⟨e, B, hd, hk, ?_⟩
  unfold removeAtLower lowerIdx
  have hsplit := List.takeWhile_append_dropWhile
    (p := fun b => decide (key b < id)) (l := l)
  set A := l.takeWhile (fun b => decide (key b < id)) with hA
  have hlen : A.length < l.length := by
    rw [← hsplit, hd]
    simp
  rw [if_pos hlen]
  have htake : l.take A.length = A := by
    conv_lhs => rw [← hsplit, hd]
    exact List.take_left A (e :: B)
  have hdrop : l.drop (A.length + 1) = B := by
    conv_lhs => rw [← hsplit, hd]
    rw [← List.drop_drop, List.drop_left A (e :: B)]
    rfl
  rw [htake, hdrop]

/-- The live-pair precondition for a link operation: both catalog
records exist, the node's job list is sorted, and the pair is linked
exactly when the next operation is RmLink. -/
def PairReady (s : DataState) (jid nid : Nat) (nextAdd : Bool) : Prop :=
  (∃ j, findBy jobId s.jobs jid = some j) ∧
  (∃ n, findBy nodeKey s.nodes nid = some n ∧
    n.jobs.Pairwise (fun x y => descId x < descId y) ∧
    (jid ∈ n.jobs.map descId ↔ nextAdd = false))

theorem addLink_step {s : DataState} {jid nid : Nat}
    (h : PairReady s jid nid true) :
    PairReady (doAddLinkOp s jid nid) jid nid false ∧
    (doAddLinkOp s jid nid).diffs =
      linkDiffApply (linkDiff opAddLink jid nid) (linkDiff opRmLink jid nid) s.diffs := by
  obtain ⟨⟨j, hj⟩, n, hn, hsort, hmem⟩ := h
  have hnotmem : jid ∉ n.jobs.map descId := fun h2 => absurd (hmem.mp h2) (by simp)
  have hjid : descId j.desc = jid := (findBy_mem hj).2
  have hnid : nodeKey n = nid := (findBy_mem hn).2
  have hjobs : (doAddLinkOp s jid nid).jobs =
      updateBy jobId s.jobs jid (fun a => { a with nodes := a.nodes ++ [nid] }) := by
    simp only [doAddLinkOp, applyAddLink, hj]
  have hnodes : (doAddLinkOp s jid nid).nodes =
      updateBy nodeKey s.nodes nid (fun a =>
        { a with jobs := insertBy descId a.jobs j.desc, used := a.used + j.capa }) := by
    simp only [doAddLinkOp, applyAddLink, hj]
  refine ⟨⟨?_, ?_⟩, ?_⟩
  · rw [hjobs,
      findBy_updateBy
        (show ∀ a : job, jobId { a with nodes := a.nodes ++ [nid] } = jobId a
          from fun a => rfl),
      hj]
    exact ⟨_, rfl⟩
  · rw [hnodes,
      findBy_updateBy
        (show ∀ a : node,
            nodeKey { a with jobs := insertBy descId a.jobs j.desc, used := a.used + j.capa } =
              nodeKey a
          from fun a => rfl),
      hn]
    refine ⟨_, rfl, ?_, ?_⟩
    · simp only [if_pos hnid]
      exact insertBy_pairwise hsort (hjid ▸ hnotmem)
    · simp only [if_pos hnid]
      exact ⟨fun _ => by trivial, fun _ => mem_map_insertBy.mpr (Or.inl hjid.symm)⟩
  · simp only [doAddLinkOp, applyAddLink, hj]

theorem rmLink_step {s : DataState} {jid nid : Nat}
    (h : PairReady s jid nid false) :
    ∃ s1, doRmLinkOp s jid nid = some s1 ∧ PairReady s1 jid nid true ∧
      s1.diffs =
        linkDiffApply (linkDiff opRmLink jid nid) (linkDiff opAddLink jid nid) s.diffs := by
  obtain ⟨⟨j, hj⟩, n, hn, hsort, hmem⟩ := h
  have hmem2 : jid ∈ n.jobs.map descId := hmem.mpr rfl
  have hnid : nodeKey n = nid := (findBy_mem hn).2
  obtain ⟨e, B, hd, hk, hrm⟩ := removeAtLower_of_mem hsort hmem2
  have hcore : doRmLinkOp s jid nid = some
      { s with
        nodes := updateBy nodeKey s.nodes nid (fun n0 =>
          { n0 with jobs := n.jobs.takeWhile (fun b => decide (descId b < jid)) ++ B,
                    used := n0.used - j.capa }),
        jobs := updateBy jobId s.jobs jid (fun j0 => { j0 with nodes := j0.nodes.erase nid }),
        diffs := linkDiffApply (linkDiff opRmLink jid nid) (linkDiff opAddLink jid nid)
          s.diffs } := by
    simp only [doRmLinkOp, doRmLinkCore, applyRmLinkCore, hn, hj, hrm, Option.map_some']
  have hnotin : jid ∉ (n.jobs.takeWhile (fun b => decide (descId b < jid)) ++ B).map descId := by
    intro hin
    rcases List.mem_map.mp hin with ⟨y, hy, hky⟩
    rcases List.mem_append.mp hy with hy | hy
    · have := List.mem_takeWhile_imp hy
      simp at this
      omega
    · have hpe : (e :: B).Pairwise (fun x y => descId x < descId y) := by
        have := hsort.sublist (List.dropWhile_sublist (fun b => decide (descId b < jid)))
        rwa [hd] at this
      rw [List.pairwise_cons] at hpe
      have := hpe.1 y hy
      omega
  refine ⟨_, hcore, ⟨?_, ?_⟩, rfl⟩
  · dsimp only
    rw [findBy_updateBy
        (show ∀ j0 : job, jobId { j0 with nodes := j0.nodes.erase nid } = jobId j0
          from fun a => rfl),
      hj]
    exact ⟨_, rfl⟩
  · dsimp only
    rw [findBy_updateBy
        (show ∀ n0 : node,
            nodeKey { n0 with
              jobs := n.jobs.takeWhile (fun b => decide (descId b < jid)) ++ B,
              used := n0.used - j.capa } = nodeKey n0
          from fun a => rfl),
      hn]
    refine ⟨_, rfl, ?_, ?_⟩
    · simp only [if_pos hnid]
      have hsplit := List.takeWhile_append_dropWhile
        (p := fun b => decide (descId b < jid)) (l := n.jobs)
      refine hsort.sublist ?_
      conv_rhs => rw [← hsplit, hd]
      exact (List.sublist_cons_self e B).append_left _
    · simp only [if_pos hnid]
      exact iff_of_false hnotin (by simp)

theorem linkDiffApply_append {l notl : dataDiff} : ∀ {ds : List dataDiff},
    l ∉ ds → notl ∉ ds → linkDiffApply l notl ds = ds ++ [l]
  | [], _, _ => rfl
  | v :: t, hl, hn => by
    have hv1 : ¬ v = notl := fun he => hn (List.mem_cons.mpr (Or.inl he.symm))
    have hv2 : ¬ v = l := fun he => hl (List.mem_cons.mpr (Or.inl he.symm))
    unfold linkDiffApply
    rw [if_neg hv1, if_neg hv2,
      linkDiffApply_append (fun h2 => hl (List.mem_cons_of_mem _ h2))
        (fun h2 => hn (List.mem_cons_of_mem _ h2))]
    rfl

theorem linkDiffApply_cancel {l notl : dataDiff} : ∀ {ds : List dataDiff},
    l ∉ ds → notl ∉ ds → linkDiffApply l notl (ds ++ [notl]) = ds
  | [], _, _ => by simp [linkDiffApply]
  | v :: t, hl, hn => by
    have hv1 : ¬ v = notl := fun he => hn (List.mem_cons.mpr (Or.inl he.symm))
    have hv2 : ¬ v = l := fun he => hl (List.mem_cons.mpr (Or.inl he.symm))
    rw [List.cons_append]
    unfold linkDiffApply
    rw [if_neg hv1, if_neg hv2,
      linkDiffApply_cancel (fun h2 => hl (List.mem_cons_of_mem _ h2))
        (fun h2 => hn (List.mem_cons_of_mem _ h2))]

/-- The alternating link-operation sequence on one pair: `k` operations,
starting with AddLink when `first` is true, each toggling. -/
def altOps (jid nid : Nat) : Bool → Nat → List Op
  | _, 0 => []
  | first, k + 1 =>
    (if first then Op.addLink jid nid else Op.rmLink jid nid) :: altOps jid nid (!first) k

theorem altRun {jid nid : Nat} : ∀ (k : Nat) (s : DataState) (first : Bool),
    PairReady s jid nid first →
    linkDiff opAddLink jid nid ∉ s.diffs → linkDiff opRmLink jid nid ∉ s.diffs →
    ∃ s1, runOps s (altOps jid nid first k) = some s1 ∧
      s1.diffs = (if k % 2 = 0 then s.diffs
        else s.diffs ++ [linkDiff (if first then opAddLink else opRmLink) jid nid])
  | 0, s, first, _, _, _ => ⟨s, rfl, by simp⟩
  | 1, s, first, hp, hadd, hrm => by
    cases first with
    | true =>
      obtain ⟨hp1, hd1⟩ := addLink_step hp
      refine ⟨doAddLinkOp s jid nid, rfl, ?_⟩
      rw [hd1, linkDiffApply_append hadd hrm]
      simp
    | false =>
      obtain ⟨s1, hs1, hp1, hd1⟩ := rmLink_step hp
      refine ⟨s1, ?_, ?_⟩
      · simp [altOps, runOps, doOp, hs1]
      · rw [hd1, linkDiffApply_append hrm hadd]
        simp
  | (k + 2), s, first, hp, hadd, hrm => by
    cases first with
    | true =>
      obtain ⟨hp1, hd1⟩ := addLink_step hp
      obtain ⟨s2, hs2, hp2, hd2⟩ := rmLink_step hp1
      have hd2e : s2.diffs = s.diffs := by
        rw [hd2, hd1, linkDiffApply_append hadd hrm, linkDiffApply_cancel hrm hadd]
      obtain ⟨s3, hrun3, hd3⟩ := altRun k s2 true hp2 (hd2e ▸ hadd) (hd2e ▸ hrm)
      refine ⟨s3, ?_, ?_⟩
      · show runOps s (Op.addLink jid nid :: Op.rmLink jid nid :: altOps jid nid true k) = _
        simp only [runOps, doOp, hs2]
        exact hrun3
      · rw [hd3, hd2e]
        have hmod : (k + 2) % 2 = k % 2 := by omega
        rw [hmod]
    | false =>
      obtain ⟨s1, hs1, hp1, hd1⟩ := rmLink_step hp
      have hd1e : s1.diffs = s.diffs ++ [linkDiff opRmLink jid nid] := by
        rw [hd1, linkDiffApply_append hrm hadd]
      obtain ⟨hp2, hd2⟩ := addLink_step hp1
      have hd2e : (doAddLinkOp s1 jid nid).diffs = s.diffs := by
        rw [hd2, hd1e, linkDiffApply_cancel hadd hrm]
      obtain ⟨s3, hrun3, hd3⟩ := altRun k (doAddLinkOp s1 jid nid) false hp2
        (hd2e ▸ hadd) (hd2e ▸ hrm)
      refine ⟨s3, ?_, ?_⟩
      · show runOps s (Op.rmLink jid nid :: Op.addLink jid nid :: altOps jid nid false k) = _
        simp only [runOps, doOp, hs1]
        exact hrun3
      · rw [hd3, hd2e]
        have hmod : (k + 2) % 2 = k % 2 := by omega
        rw [hmod]

/-- The diff-log entries concerning one (job, node) pair. -/
def pairDiffs (jid nid : Nat) (ds : List dataDiff) : List dataDiff :=
  ds.filter (fun v => v == linkDiff opAddLink jid nid || v == linkDiff opRmLink jid nid)

/-- C4: for a live pair and a diff log with no entry for it, any
alternating sequence of AddLink/RmLink operations on the pair runs
without error and leaves as the pair's diff-log entries exactly the net
op: nothing when the ops cancel out (even count), otherwise the single
diff of the first — equivalently the most recent effective — operation;
in particular AddLink; RmLink; AddLink leaves `[+]`, `[]`, `[+]` after
the respective steps. -/
theorem link_diffs_alternating_net (s : DataState) (jid nid : Nat) (first : Bool) (k : Nat)
    (hp : PairReady s jid nid first) (hd : pairDiffs jid nid s.diffs = []) :
    ∃ s1, runOps s (altOps jid nid first k) = some s1 ∧
      pairDiffs jid nid s1.diffs =
        (if k % 2 = 0 then []
         else [linkDiff (if first then opAddLink else opRmLink) jid nid]) := by
  have hnone : ∀ v ∈ s.diffs,
      ¬(v == linkDiff opAddLink jid nid || v == linkDiff opRmLink jid nid) = true := by
    intro v hv
    exact (List.filter_eq_nil.mp hd) v hv
  have hadd : linkDiff opAddLink jid nid ∉ s.diffs := by
    intro hmem
    exact hnone _ hmem (by simp)
  have hrm : linkDiff opRmLink jid nid ∉ s.diffs := by
    intro hmem
    exact hnone _ hmem (by simp)
  obtain ⟨s1, hrun, hdiffs⟩ := altRun k s first hp hadd hrm
  refine ⟨s1, hrun, ?_⟩
  rw [hdiffs]
  by_cases hk : k % 2 = 0
  · rw [if_pos hk, if_pos hk]
    exact hd
  · rw [if_neg hk, if_neg hk]
    have hd2 : List.filter
        (fun v => v == linkDiff opAddLink jid nid || v == linkDiff opRmLink jid nid)
        s.diffs = [] := hd
    unfold pairDiffs
    rw [List.filter_append, hd2]
    cases first <;> simp

def c4State : DataState := { jobs := [c1Job], nodes := [c1Node], diffs := [], results := [] }

/-- C4 (witness): the concrete scenario of the claim — a fresh pair
(job 1, node 1), AddLink; RmLink; AddLink (`k = 3` starting with
AddLink) — satisfies the hypotheses, and the net diff for the pair is
the single AddLink entry; the diff log after each prefix is `[+]`, `[]`,
`[+]`. -/
theorem link_diffs_alternating_net_witness :
    (PairReady c4State 1 1 true ∧ pairDiffs 1 1 c4State.diffs = []) ∧
    (∃ s1, runOps c4State (altOps 1 1 true 3) = some s1 ∧
      pairDiffs 1 1 s1.diffs =
        (if 3 % 2 = 0 then []
         else [linkDiff (if true then opAddLink else opRmLink) 1 1])) ∧
    (runOps c4State (altOps 1 1 true 1)).map (fun s => pairDiffs 1 1 s.diffs) =
      some [linkDiff opAddLink 1 1] ∧
    (runOps c4State (altOps 1 1 true 2)).map (fun s => pairDiffs 1 1 s.diffs) = some [] ∧
    (runOps c4State (altOps 1 1 true 3)).map (fun s => pairDiffs 1 1 s.diffs) =
      some [linkDiff opAddLink 1 1] :=
  ⟨⟨⟨⟨c1Job, rfl⟩, c1Node, rfl, by decide, by decide⟩, rfl⟩,
   link_diffs_alternating_net c4State 1 1 true 3
     ⟨⟨c1Job, rfl⟩, c1Node, rfl, by decide, by decide⟩ rfl,
   by decide, by decide, by decide⟩

def c7Rand : List Nat := List.range 32

def c7Zeros : String :=
  "0000000000000000000000000000000000000000000000000000000000000000"

/-- C7: the claim says a keyless `node <id> <capa> <geoloc>` command
generates a random key and replies 200, a 4-argument form installs the
supplied 64-hex-digit key, and the handler never panics.  In part_007
the two key branches are swapped: the well-formed 3-argument command
evaluates `args[3]` — an index-out-of-range panic (`none`) — and the
4-argument command silently installs 32 random bytes instead of the
supplied key (here: a key of 64 zero digits yields the random bytes
`0..31`). -/
theorem mgmtAddNode_key_branches_swapped :
    mgmtAddNode ["1", "10", "0"] c7Rand emptyState = none ∧
    (mgmtAddNode ["1", "10", "0", c7Zeros] c7Rand emptyState).map
        (fun r => (r.1, r.2.2.nodes.map node.key)) = some (200, [c7Rand.take 32]) ∧
    c7Rand.take 32 ≠ decodeHex c7Zeros.toList := by decide

/-! ## C1: invariant preservation for well-formed operation sequences

Groundwork: further facts about the sorted-list primitives. -/

theorem findBy_of_mem {key : α → Nat} {l : List α} {id : Nat} {x : α}
    (hp : l.Pairwise (fun a b => key a < key b)) (hx : x ∈ l) (hk : key x = id) :
    findBy key l id = some x := by
  have hm : id ∈ l.map key := List.mem_map.mpr ⟨x, hx, hk⟩
  obtain ⟨e, B, hd, hke⟩ := sorted_split hp hm
  have he : e ∈ l := (List.dropWhile_sublist _).subset (hd ▸ List.mem_cons_self e B)
  have hex : e = x := pairwise_key_inj hp e he x hx (by rw [hke, hk])
  unfold findBy
  rw [hd]
  dsimp only
  rw [if_pos hke, hex]

theorem findBy_none_iff {key : α → Nat} {l : List α} {id : Nat}
    (hp : l.Pairwise (fun a b => key a < key b)) :
    findBy key l id = none ↔ id ∉ l.map key := by
  constructor
  · intro h hm
    obtain ⟨e, B, hd, hke⟩ := sorted_split hp hm
    unfold findBy at h
    rw [hd] at h
    dsimp only at h
    rw [if_pos hke] at h
    cases h
  · intro hm
    cases hf : findBy key l id with
    | none => rfl
    | some x =>
      obtain ⟨hx, hk⟩ := findBy_mem hf
      exact absurd (List.mem_map.mpr ⟨x, hx, hk⟩) hm

theorem mem_insertBy {key : α → Nat} {l : List α} {a x : α} :
    x ∈ insertBy key l a ↔ x = a ∨ x ∈ l := by
  unfold insertBy
  constructor
  · intro h
    rcases List.mem_append.mp h with h | h
    · exact Or.inr ((List.takeWhile_sublist _).subset h)
    · rcases List.mem_cons.mp h with h | h
      · exact Or.inl h
      · exact Or.inr ((List.dropWhile_sublist _).subset h)
  · intro h
    rcases h with h | h
    · exact List.mem_append_right _ (List.mem_cons.mpr (Or.inl h))
    · have hsplit := List.takeWhile_append_dropWhile
        (p := fun b => decide (key b < key a)) (l := l)
      rw [← hsplit] at h
      rcases List.mem_append.mp h with h | h
      · exact List.mem_append_left _ h
      · exact List.mem_append_right _ (List.mem_cons_of_mem _ h)

theorem map_sum_insertBy {key : α → Nat} (f : α → Int) (l : List α) (a : α) :
    ((insertBy key l a).map f).sum = f a + (l.map f).sum := by
  unfold insertBy
  conv_rhs =>
    rw [← List.takeWhile_append_dropWhile (p := fun b => decide (key b < key a)) (l := l)]
  simp only [List.map_append, List.sum_append, List.map_cons, List.sum_cons]
  omega

theorem removeBy_sublist {key : α → Nat} (l : List α) (id : Nat) :
    List.Sublist (removeBy key l id) l := by
  unfold removeBy
  cases hd : l.dropWhile (fun b => key b < id) with
  | nil => exact List.Sublist.refl l
  | cons b t =>
    dsimp only
    by_cases hk : key b = id
    · rw [if_pos hk]
      have hsplit := List.takeWhile_append_dropWhile
        (p := fun b => decide (key b < id)) (l := l)
      conv_rhs => rw [← hsplit, hd]
      exact (List.sublist_cons_self b t).append_left _
    · rw [if_neg hk]

theorem removeBy_split {key : α → Nat} {l : List α} {id : Nat}
    (hp : l.Pairwise (fun a b => key a < key b)) (hm : id ∈ l.map key) :
    ∃ e B, l.dropWhile (fun b => decide (key b < id)) = e :: B ∧ key e = id ∧
      l = l.takeWhile (fun b => decide (key b < id)) ++ e :: B ∧
      removeBy key l id = l.takeWhile (fun b => decide (key b < id)) ++ B := by
  obtain ⟨e, B, hd, hke⟩ := sorted_split hp hm
  refine ⟨e, B, hd, hke, ?_, ?_⟩
  · conv_lhs =>
      rw [← List.takeWhile_append_dropWhile (p := fun b => decide (key b < id)) (l := l)]
    rw [hd]
  · unfold removeBy
    rw [hd]
    dsimp only
    rw [if_pos hke]

theorem mem_removeBy_iff {key : α → Nat} {l : List α} {id : Nat} {x : α}
    (hp : l.Pairwise (fun a b => key a < key b)) :
    x ∈ removeBy key l id ↔ x ∈ l ∧ key x ≠ id := by
  by_cases hm : id ∈ l.map key
  · obtain ⟨e, B, hd, hke, hsplit, hrm⟩ := removeBy_split hp hm
    rw [hrm]
    constructor
    · intro h
      rcases List.mem_append.mp h with h | h
      · have hlt := List.mem_takeWhile_imp h
        simp only [decide_eq_true_eq] at hlt
        exact ⟨(List.takeWhile_sublist _).subset h, by omega⟩
      · have hpe : (e :: B).Pairwise (fun a b => key a < key b) := by
          have h2 := hp.sublist (List.dropWhile_sublist (fun b => decide (key b < id)))
          rwa [hd] at h2
        rw [List.pairwise_cons] at hpe
        have := hpe.1 x h
        refine ⟨?_, by omega⟩
        rw [hsplit]
        exact List.mem_append_right _ (List.mem_cons_of_mem _ h)
    · rintro ⟨hxl, hne⟩
      rw [hsplit] at hxl
      rcases List.mem_append.mp hxl with h | h
      · exact List.mem_append_left _ h
      · rcases List.mem_cons.mp h with h | h
        · rw [h] at hne; exact absurd hke hne
        · exact List.mem_append_right _ h
  · have hrm : removeBy key l id = l := by
      unfold removeBy
      cases hd : l.dropWhile (fun b => key b < id) with
      | nil => rfl
      | cons b t =>
        dsimp only
        have hne : ¬ key b = id := fun hke =>
          hm (List.mem_map.mpr
            ⟨b, (List.dropWhile_sublist _).subset (hd ▸ List.mem_cons_self b t), hke⟩)
        rw [if_neg hne]
    rw [hrm]
    constructor
    · intro h
      exact ⟨h, fun hke => hm (List.mem_map.mpr ⟨x, h, hke⟩)⟩
    · exact fun h => h.1

theorem findBy_removeBy_of_ne {key : α → Nat} {l : List α} {id id2 : Nat}
    (hp : l.Pairwise (fun a b => key a < key b)) (hne : id2 ≠ id) :
    findBy key (removeBy key l id) id2 = findBy key l id2 := by
  have hp2 : (removeBy key l id).Pairwise (fun a b => key a < key b) :=
    hp.sublist (removeBy_sublist l id)
  cases hf : findBy key l id2 with
  | some x =>
    obtain ⟨hx, hk⟩ := findBy_mem hf
    exact findBy_of_mem hp2 ((mem_removeBy_iff hp).mpr ⟨hx, by omega⟩) hk
  | none =>
    rw [findBy_none_iff hp2]
    intro hm
    rcases List.mem_map.mp hm with ⟨y, hy, hky⟩
    rw [findBy_none_iff hp] at hf
    exact hf (List.mem_map.mpr ⟨y, ((mem_removeBy_iff hp).mp hy).1, hky⟩)

theorem findBy_insertBy_of_ne {key : α → Nat} {l : List α} {a : α} {id : Nat}
    (hp : l.Pairwise (fun x y => key x < key y)) (hfresh : key a ∉ l.map key)
    (hne : id ≠ key a) :
    findBy key (insertBy key l a) id = findBy key l id := by
  have hp2 := insertBy_pairwise hp hfresh
  cases hf : findBy key l id with
  | some x =>
    obtain ⟨hx, hk⟩ := findBy_mem hf
    exact findBy_of_mem hp2 (mem_insertBy.mpr (Or.inr hx)) hk
  | none =>
    rw [findBy_none_iff hp2]
    intro hm
    rcases List.mem_map.mp hm with ⟨y, hy, hky⟩
    rcases mem_insertBy.mp hy with h | h
    · rw [h] at hky; exact hne hky.symm
    · rw [findBy_none_iff hp] at hf
      exact hf (List.mem_map.mpr ⟨y, h, hky⟩)

theorem descIn_iff {l : List jobDesc} {id : Nat}
    (hp : l.Pairwise (fun a b => descId a < descId b)) :
    descIn l id = true ↔ id ∈ l.map descId := by
  constructor
  · intro h
    unfold descIn at h
    cases hd : l.dropWhile (fun d => d.Id < id) with
    | nil => rw [hd] at h; cases h
    | cons b t =>
      rw [hd] at h
      dsimp only at h
      rw [decide_eq_true_eq] at h
      exact List.mem_map.mpr
        ⟨b, (List.dropWhile_sublist _).subset (hd ▸ List.mem_cons_self b t), h⟩
  · intro hm
    have hp2 : l.Pairwise (fun a b : jobDesc => descId a < descId b) := hp
    obtain ⟨e, B, hd, hke⟩ := sorted_split hp2 hm
    have hd2 : l.dropWhile (fun d => decide (d.Id < id)) = e :: B := hd
    unfold descIn
    rw [hd2]
    dsimp only
    rw [decide_eq_true_eq]
    exact hke

theorem canRunS_descIn {s : DataState} {nid jid : Nat} (h : canRunS s nid jid = true) :
    ∃ n, findBy nodeKey s.nodes nid = some n ∧ descIn n.jobs jid = false := by
  unfold canRunS at h
  cases hf : findBy jobId s.jobs jid with
  | none => rw [hf] at h; cases h
  | some j =>
    cases hg : findBy nodeKey s.nodes nid with
    | none => rw [hf, hg] at h; cases h
    | some n =>
      rw [hf, hg] at h
      simp only [Bool.and_eq_true, Bool.not_eq_true'] at h
      exact ⟨n, rfl, h.2⟩

/-- The invariants only look at the two catalogs: a state with the same
jobs and nodes (and any diff log or result queue) satisfies them too. -/
theorem Inv_of_parts {s t : DataState} (hj : t.jobs = s.jobs) (hn : t.nodes = s.nodes)
    (h : Inv s) : Inv t := by
  obtain ⟨h1, h2, h3, h4a, h4b, h5, h6, haux⟩ := h
  have hc : (fun d : jobDesc => capaOf t d.Id) = (fun d => capaOf s d.Id) := by
    funext d
    unfold capaOf
    rw [hj]
  refine ⟨?_, ?_, ?_, ?_, ?_, ?_, ?_, ?_⟩
  · simp only [I1]; rw [hj, hn]; exact h1
  · simp only [I2]; rw [hn]; exact h2
  · simp only [I3]
    rw [hn]
    intro m hm
    rw [h3 m hm, hc]
  · simp only [I4a]; rw [hj, hn]; exact h4a
  · simp only [I4b]; rw [hj, hn]; exact h4b
  · simp only [I5]; rw [hj]; exact h5
  · simp only [I6s]; rw [hn]; exact h6
  · simp only [InvAux]; rw [hj]; exact haux

theorem capaOf_updateBy_jobs {s t : DataState} {jid : Nat} {f : job → job}
    (hkey : ∀ a, jobId (f a) = jobId a) (hcapa : ∀ a, (f a).capa = a.capa)
    (ht : t.jobs = updateBy jobId s.jobs jid f) (id : Nat) :
    capaOf t id = capaOf s id := by
  unfold capaOf
  rw [ht, findBy_updateBy hkey]
  cases findBy jobId s.jobs id with
  | none => rfl
  | some x => by_cases h : jobId x = jid <;> simp [h, hcapa]

/-- Per-operation well-formedness: the side conditions under which the
data core's `doOp` is actually exercised by the rest of the server.
AddNode/AddJob install a fresh, unlinked record with a non-negative
balance (the management surface rejects duplicate ids with 550); AddLink
is issued only by the scheduler, behind `runnable` and `canRun`; RmLink
only for a linked pair (or with one of the records already gone, a
silent no-op); RmNode/RmJob only for a present record with at most two
links — beyond two, the aliased range-loop in the removal cascades walks
a stale slice header. -/
def WfOp (s : DataState) : Op → Prop
  | .addLink jid nid => runnableS s jid = true ∧ canRunS s nid jid = true
  | .rmLink jid nid =>
    findBy nodeKey s.nodes nid = none ∨ findBy jobId s.jobs jid = none ∨
      jid ∈ (((findBy nodeKey s.nodes nid).map (fun n : node => n.jobs.map descId)).getD [])
  | .addNode n =>
    findBy nodeKey s.nodes n.id = none ∧ n.jobs = [] ∧ n.used = 0 ∧ 0 ≤ n.capa
  | .rmNode nid =>
    (findBy nodeKey s.nodes nid).isSome = true ∧
      ((findBy nodeKey s.nodes nid).map (fun n => n.jobs.length)).getD 0 ≤ 2
  | .addJob j => findBy jobId s.jobs (jobId j) = none ∧ j.nodes = [] ∧ 0 ≤ j.capa
  | .rmJob jid =>
    (findBy jobId s.jobs jid).isSome = true ∧
      ((findBy jobId s.jobs jid).map (fun j => j.nodes.length)).getD 0 ≤ 2
  | .nodeSeen _ _ => True
  | .addResults _ => True

instance (s : DataState) (o : Op) : Decidable (WfOp s o) :=
  match o with
  | .addLink jid nid =>
    inferInstanceAs (Decidable (runnableS s jid = true ∧ canRunS s nid jid = true))
  | .rmLink jid nid =>
    inferInstanceAs (Decidable (findBy nodeKey s.nodes nid = none ∨
      findBy jobId s.jobs jid = none ∨
      jid ∈ (((findBy nodeKey s.nodes nid).map
        (fun n : node => n.jobs.map descId)).getD [])))
  | .addNode n =>
    inferInstanceAs (Decidable (findBy nodeKey s.nodes n.id = none ∧ n.jobs = [] ∧
      n.used = 0 ∧ 0 ≤ n.capa))
  | .rmNode nid =>
    inferInstanceAs (Decidable ((findBy nodeKey s.nodes nid).isSome = true ∧
      ((findBy nodeKey s.nodes nid).map (fun n => n.jobs.length)).getD 0 ≤ 2))
  | .addJob j =>
    inferInstanceAs (Decidable (findBy jobId s.jobs (jobId j) = none ∧ j.nodes = [] ∧
      0 ≤ j.capa))
  | .rmJob jid =>
    inferInstanceAs (Decidable ((findBy jobId s.jobs jid).isSome = true ∧
      ((findBy jobId s.jobs jid).map (fun j => j.nodes.length)).getD 0 ≤ 2))
  | .nodeSeen _ _ => inferInstanceAs (Decidable True)
  | .addResults _ => inferInstanceAs (Decidable True)

/-- A guarded AddLink preserves all the invariants. -/
theorem addLink_inv {s : DataState} {jid nid : Nat}
    (hI : Inv s) (hr : runnableS s jid = true) (hc : canRunS s nid jid = true) :
    Inv (doAddLinkOp s jid nid) := by
  obtain ⟨h1, h2, h3, h4a, h4b, h5, h6, haux⟩ := hI
  obtain ⟨k1, k5, k6⟩ := doAddLinkOp_inv hr hc h1 h5 h6
  obtain ⟨j0, hj, hlen⟩ := runnableS_spec hr
  obtain ⟨j2, n2, hj2, hn2, hcapa⟩ := canRunS_spec hc
  obtain ⟨n3, hn3, hdIn⟩ := canRunS_descIn hc
  have hje : j2 = j0 := by rw [hj] at hj2; exact (Option.some.inj hj2).symm
  subst hje
  have hne2 : n2 = n3 := by rw [hn2] at hn3; exact Option.some.inj hn3
  subst hne2
  obtain ⟨hjmem, hjkey⟩ := findBy_mem hj
  obtain ⟨hnmem, hnkey⟩ := findBy_mem hn2
  have hjobs : (doAddLinkOp s jid nid).jobs =
      updateBy jobId s.jobs jid (fun a => { a with nodes := a.nodes ++ [nid] }) := by
    simp only [doAddLinkOp, applyAddLink, hj]
  have hnodes : (doAddLinkOp s jid nid).nodes =
      updateBy nodeKey s.nodes nid (fun a =>
        { a with jobs := insertBy descId a.jobs j2.desc, used := a.used + j2.capa }) := by
    simp only [doAddLinkOp, applyAddLink, hj]
  have hsort2 : n2.jobs.Pairwise (fun x y => descId x < descId y) := h2 n2 hnmem
  have hfresh : jid ∉ n2.jobs.map descId := by
    intro hm
    have h := (descIn_iff hsort2).mpr hm
    rw [hdIn] at h
    cases h
  have hdesc : descId j2.desc = jid := hjkey
  have hnidnotin : nid ∉ j2.nodes := by
    intro hmem
    obtain ⟨m, hmmem, hmid, d, hd, hdid⟩ := h4b j2 hjmem nid hmem
    have hm2 : m = n2 := pairwise_key_inj h1.2 m hmmem n2 hnmem
      (show nodeKey m = nodeKey n2 from hmid.trans hnkey.symm)
    subst hm2
    exact hfresh (List.mem_map.mpr ⟨d, hd, show descId d = jid from hdid.trans hjkey⟩)
  have hcapEq : ∀ id, capaOf (doAddLinkOp s jid nid) id = capaOf s id :=
    capaOf_updateBy_jobs (f := fun a => { a with nodes := a.nodes ++ [nid] })
      (fun a => rfl) (fun a => rfl) hjobs
  have hfun : (fun d : jobDesc => capaOf (doAddLinkOp s jid nid) d.Id) =
      (fun d => capaOf s d.Id) := funext fun d => hcapEq d.Id
  have hI2 : I2 (doAddLinkOp s jid nid) := by
    simp only [I2]
    rw [hnodes]
    intro m hm
    rcases mem_updateBy.mp hm with ⟨a, ha, rfl⟩
    by_cases hk : nodeKey a = nid
    · have hae : a = n2 := pairwise_key_inj h1.2 a ha n2 hnmem
        (show nodeKey a = nodeKey n2 from hk.trans hnkey.symm)
      rw [if_pos hk, hae]
      exact insertBy_pairwise hsort2
        (by rw [show j2.desc.Id = jid from hdesc]; exact hfresh)
    · rw [if_neg hk]
      exact h2 a ha
  have hI3 : I3 (doAddLinkOp s jid nid) := by
    simp only [I3]
    rw [hnodes]
    intro m hm
    rcases mem_updateBy.mp hm with ⟨a, ha, rfl⟩
    by_cases hk : nodeKey a = nid
    · have hae : a = n2 := pairwise_key_inj h1.2 a ha n2 hnmem
        (show nodeKey a = nodeKey n2 from hk.trans hnkey.symm)
      rw [if_pos hk, hae, hfun]
      dsimp only
      rw [map_sum_insertBy]
      have hcap2 : capaOf s j2.desc.Id = j2.capa := by
        unfold capaOf
        rw [show j2.desc.Id = jid from hjkey, hj]
        rfl
      rw [hcap2, ← h3 n2 hnmem]
      omega
    · rw [if_neg hk, hfun]
      exact h3 a ha
  have hI4a : I4a (doAddLinkOp s jid nid) := by
    simp only [I4a]
    rw [hnodes, hjobs]
    intro m hm d hd
    rcases mem_updateBy.mp hm with ⟨a, ha, rfl⟩
    by_cases hk : nodeKey a = nid
    · have hae : a = n2 := pairwise_key_inj h1.2 a ha n2 hnmem
        (show nodeKey a = nodeKey n2 from hk.trans hnkey.symm)
      rw [if_pos hk, hae] at hd ⊢
      dsimp only at hd
      rcases mem_insertBy.mp hd with rfl | hd2
      · refine ⟨{ j2 with nodes := j2.nodes ++ [nid] },
          mem_updateBy.mpr ⟨j2, hjmem, by rw [if_pos (show jobId j2 = jid from hjkey)]⟩,
          rfl, ?_⟩
        show n2.id ∈ j2.nodes ++ [nid]
        rw [show n2.id = nid from hnkey]
        exact List.mem_append_right _ (List.mem_cons_self _ _)
      · obtain ⟨j3, hj3, hjid3, hin3⟩ := h4a n2 hnmem d hd2
        refine ⟨(if jobId j3 = jid then { j3 with nodes := j3.nodes ++ [nid] } else j3),
          mem_updateBy.mpr ⟨j3, hj3, rfl⟩, ?_, ?_⟩
        · by_cases hk2 : jobId j3 = jid
          · rw [if_pos hk2]; exact hjid3
          · rw [if_neg hk2]; exact hjid3
        · by_cases hk2 : jobId j3 = jid
          · rw [if_pos hk2]
            exact List.mem_append_left _ hin3
          · rw [if_neg hk2]
            exact hin3
    · rw [if_neg hk] at hd ⊢
      obtain ⟨j3, hj3, hjid3, hin3⟩ := h4a a ha d hd
      refine ⟨(if jobId j3 = jid then { j3 with nodes := j3.nodes ++ [nid] } else j3),
        mem_updateBy.mpr ⟨j3, hj3, rfl⟩, ?_, ?_⟩
      · by_cases hk2 : jobId j3 = jid
        · rw [if_pos hk2]; exact hjid3
        · rw [if_neg hk2]; exact hjid3
      · by_cases hk2 : jobId j3 = jid
        · rw [if_pos hk2]
          exact List.mem_append_left _ hin3
        · rw [if_neg hk2]
          exact hin3
  have hI4b : I4b (doAddLinkOp s jid nid) := by
    simp only [I4b]
    rw [hnodes, hjobs]
    intro jx hjx nidx hnidx
    rcases mem_updateBy.mp hjx with ⟨b, hb, rfl⟩
    by_cases hk : jobId b = jid
    · have hbe : b = j2 := pairwise_key_inj h1.1 b hb j2 hjmem
        (show jobId b = jobId j2 from hk.trans hjkey.symm)
      subst hbe
      rw [if_pos hk] at hnidx ⊢
      dsimp only at hnidx
      rcases List.mem_append.mp hnidx with hin | hin
      · obtain ⟨m, hmmem, hmid, d, hd, hdid⟩ := h4b b hb nidx hin
        have hmne : ¬ nodeKey m = nid := by
          intro he
          have he2 : nidx = nid := hmid.symm.trans he
          rw [he2] at hin
          exact hnidnotin hin
        refine ⟨m, mem_updateBy.mpr ⟨m, hmmem, (if_neg hmne).symm⟩, hmid, d, hd, hdid⟩
      · rw [List.mem_singleton] at hin
        rw [hin]
        refine ⟨{ n2 with jobs := insertBy descId n2.jobs b.desc, used := n2.used + b.capa },
          mem_updateBy.mpr ⟨n2, hnmem, by rw [if_pos (show nodeKey n2 = nid from hnkey)]⟩,
          hnkey, b.desc, mem_insertBy.mpr (Or.inl rfl), rfl⟩
    · rw [if_neg hk] at hnidx ⊢
      obtain ⟨m, hmmem, hmid, d, hd, hdid⟩ := h4b b hb nidx hnidx
      by_cases hk2 : nodeKey m = nid
      · have hme : m = n2 := pairwise_key_inj h1.2 m hmmem n2 hnmem
          (show nodeKey m = nodeKey n2 from hk2.trans hnkey.symm)
        rw [hme] at hmid hd
        refine ⟨{ n2 with jobs := insertBy descId n2.jobs j2.desc, used := n2.used + j2.capa },
          mem_updateBy.mpr ⟨n2, hnmem, by rw [if_pos (show nodeKey n2 = nid from hnkey)]⟩,
          hmid, d, mem_insertBy.mpr (Or.inr hd), hdid⟩
      · exact ⟨m, mem_updateBy.mpr ⟨m, hmmem, (if_neg hk2).symm⟩, hmid, d, hd, hdid⟩
  have hIaux : InvAux (doAddLinkOp s jid nid) := by
    simp only [InvAux]
    rw [hjobs]
    intro jx hjx
    rcases mem_updateBy.mp hjx with ⟨b, hb, rfl⟩
    by_cases hk : jobId b = jid
    · have hbe : b = j2 := pairwise_key_inj h1.1 b hb j2 hjmem
        (show jobId b = jobId j2 from hk.trans hjkey.symm)
      subst hbe
      rw [if_pos hk]
      refine ⟨?_, (haux b hb).2⟩
      show (b.nodes ++ [nid]).Nodup
      rw [List.nodup_append]
      exact ⟨(haux b hb).1, List.nodup_singleton nid,
        fun x hx hx2 => by rw [List.mem_singleton] at hx2; rw [hx2] at hx; exact hnidnotin hx⟩
    · rw [if_neg hk]
      exact haux b hb
  exact ⟨k1, hI2, hI3, hI4a, hI4b, k5, k6, hIaux⟩

/-- Removing a live link (`doRmJob` with both records present and the
pair linked) succeeds and preserves all the invariants; the conclusion
also pins down the two removal indices and the new catalog entries,
which the RmNode/RmJob cascades consume. -/
theorem rmLink_inv {s : DataState} {jid nid : Nat} {n : node}
    (hI : Inv s) (hn : findBy nodeKey s.nodes nid = some n)
    (hmem : jid ∈ n.jobs.map descId) :
    ∃ j s1, findBy jobId s.jobs jid = some j ∧ nid ∈ j.nodes ∧
      doRmLinkCore s jid nid =
        some (s1, some (lowerIdx descId n.jobs jid),
          some (j.nodes.findIdx (fun x => x = nid))) ∧
      s1.jobs = updateBy jobId s.jobs jid
        (fun j0 => { j0 with nodes := j0.nodes.erase nid }) ∧
      s1.nodes = updateBy nodeKey s.nodes nid (fun n0 =>
        { n0 with jobs := removeBy descId n.jobs jid, used := n0.used - j.capa }) ∧
      Inv s1 := by
  obtain ⟨h1, h2, h3, h4a, h4b, h5, h6, haux⟩ := hI
  obtain ⟨hnmem, hnkey⟩ := findBy_mem hn
  have hsortn : n.jobs.Pairwise (fun x y => descId x < descId y) := h2 n hnmem
  obtain ⟨d0, hd0, hd0id⟩ := List.mem_map.mp hmem
  obtain ⟨j, hjmem, hjkey, hninj⟩ := h4a n hnmem d0 hd0
  have hjkey2 : jobId j = jid := hjkey.trans hd0id
  have hninj2 : nid ∈ j.nodes := by rw [← hnkey]; exact hninj
  have hj : findBy jobId s.jobs jid = some j := findBy_of_mem h1.1 hjmem hjkey2
  obtain ⟨e, B, hd, hke, hrm⟩ := removeAtLower_of_mem hsortn hmem
  have hrmeq : removeBy descId n.jobs jid =
      n.jobs.takeWhile (fun b => decide (descId b < jid)) ++ B := by
    unfold removeBy
    rw [hd]
    dsimp only
    rw [if_pos hke]
  have hsplit : n.jobs =
      n.jobs.takeWhile (fun b => decide (descId b < jid)) ++ e :: B := by
    conv_lhs =>
      rw [← List.takeWhile_append_dropWhile
        (p := fun b => decide (descId b < jid)) (l := n.jobs)]
    rw [hd]
  have hcore : doRmLinkCore s jid nid =
      some ({ s with
          nodes := updateBy nodeKey s.nodes nid (fun n0 =>
            { n0 with jobs := removeBy descId n.jobs jid, used := n0.used - j.capa }),
          jobs := updateBy jobId s.jobs jid (fun j0 =>
            { j0 with nodes := j0.nodes.erase nid }),
          diffs := linkDiffApply (linkDiff opRmLink jid nid) (linkDiff opAddLink jid nid)
            s.diffs },
        some (lowerIdx descId n.jobs jid),
        some (j.nodes.findIdx (fun x => x = nid))) := by
    rw [hrmeq]
    simp only [doRmLinkCore, applyRmLinkCore, hn, hj, hrm, Option.map_some']
    rw [if_pos hninj2]
  set t : DataState := { s with
      nodes := updateBy nodeKey s.nodes nid (fun n0 =>
        { n0 with jobs := removeBy descId n.jobs jid, used := n0.used - j.capa }),
      jobs := updateBy jobId s.jobs jid (fun j0 =>
        { j0 with nodes := j0.nodes.erase nid }),
      diffs := linkDiffApply (linkDiff opRmLink jid nid) (linkDiff opAddLink jid nid)
        s.diffs } with ht
  have hjobs1 : t.jobs = updateBy jobId s.jobs jid
      (fun j0 => { j0 with nodes := j0.nodes.erase nid }) := by rw [ht]
  have hnodes1 : t.nodes = updateBy nodeKey s.nodes nid (fun n0 =>
      { n0 with jobs := removeBy descId n.jobs jid, used := n0.used - j.capa }) := by
    rw [ht]
  have hI1 : I1 t := by
    simp only [I1, hjobs1, hnodes1]
    exact ⟨updateBy_pairwise (fun a => rfl) h1.1, updateBy_pairwise (fun a => rfl) h1.2⟩
  have hI2 : I2 t := by
    simp only [I2, hnodes1]
    intro m hm
    rcases mem_updateBy.mp hm with ⟨a, ha, rfl⟩
    by_cases hk : nodeKey a = nid
    · rw [if_pos hk]
      exact hsortn.sublist (removeBy_sublist n.jobs jid)
    · rw [if_neg hk]
      exact h2 a ha
  have hcapEq : ∀ id, capaOf t id = capaOf s id :=
    capaOf_updateBy_jobs (f := fun j0 => { j0 with nodes := j0.nodes.erase nid })
      (fun a => rfl) (fun a => rfl) hjobs1
  have hfun : (fun d : jobDesc => capaOf t d.Id) = (fun d => capaOf s d.Id) :=
    funext fun d => hcapEq d.Id
  have hcapj : capaOf s jid = j.capa := by
    unfold capaOf
    rw [hj]
    rfl
  have hI3 : I3 t := by
    simp only [I3, hnodes1]
    intro m hm
    rcases mem_updateBy.mp hm with ⟨a, ha, rfl⟩
    by_cases hk : nodeKey a = nid
    · have hae : a = n := pairwise_key_inj h1.2 a ha n hnmem
        (show nodeKey a = nodeKey n from hk.trans hnkey.symm)
      rw [if_pos hk, hae, hfun]
      dsimp only
      have hold := h3 n hnmem
      rw [hsplit] at hold
      simp only [List.map_append, List.sum_append, List.map_cons, List.sum_cons] at hold
      have hcape : capaOf s e.Id = j.capa := by
        rw [show e.Id = jid from hke]
        exact hcapj
      rw [hcape] at hold
      rw [hrmeq]
      simp only [List.map_append, List.sum_append]
      omega
    · rw [if_neg hk, hfun]
      exact h3 a ha
  have hI4a : I4a t := by
    simp only [I4a, hnodes1, hjobs1]
    intro m hm d hdm
    rcases mem_updateBy.mp hm with ⟨a, ha, rfl⟩
    by_cases hk : nodeKey a = nid
    · have hae : a = n := pairwise_key_inj h1.2 a ha n hnmem
        (show nodeKey a = nodeKey n from hk.trans hnkey.symm)
      rw [if_pos hk, hae] at hdm ⊢
      dsimp only at hdm
      obtain ⟨hdn, hdne⟩ := (mem_removeBy_iff hsortn).mp hdm
      obtain ⟨j3, hj3, hjid3, hin3⟩ := h4a n hnmem d hdn
      have hj3ne : ¬ jobId j3 = jid := by rw [hjid3]; exact hdne
      exact ⟨j3, mem_updateBy.mpr ⟨j3, hj3, (if_neg hj3ne).symm⟩, hjid3, hin3⟩
    · rw [if_neg hk] at hdm ⊢
      obtain ⟨j3, hj3, hjid3, hin3⟩ := h4a a ha d hdm
      by_cases hk2 : jobId j3 = jid
      · refine ⟨{ j3 with nodes := j3.nodes.erase nid },
          mem_updateBy.mpr ⟨j3, hj3, (if_pos hk2).symm⟩, hjid3, ?_⟩
        show a.id ∈ j3.nodes.erase nid
        exact (List.mem_erase_of_ne (show a.id ≠ nid from hk)).mpr hin3
      · exact ⟨j3, mem_updateBy.mpr ⟨j3, hj3, (if_neg hk2).symm⟩, hjid3, hin3⟩
  have hI4b : I4b t := by
    simp only [I4b, hnodes1, hjobs1]
    intro jx hjx nidx hnidx
    rcases mem_updateBy.mp hjx with ⟨b, hb, rfl⟩
    by_cases hk : jobId b = jid
    · have hbe : b = j := pairwise_key_inj h1.1 b hb j hjmem
        (show jobId b = jobId j from hk.trans hjkey2.symm)
      rw [if_pos hk] at hnidx ⊢
      rw [hbe] at hnidx ⊢
      dsimp only at hnidx
      have hnodupj : j.nodes.Nodup := (haux j hjmem).1
      have hin : nidx ∈ j.nodes := ((hnodupj.mem_erase_iff).mp hnidx).2
      have hne : nidx ≠ nid := ((hnodupj.mem_erase_iff).mp hnidx).1
      obtain ⟨m, hmmem, hmid, d2, hd2, hd2id⟩ := h4b j hjmem nidx hin
      have hmne : ¬ nodeKey m = nid := by
        intro he
        exact hne (hmid.symm.trans he)
      exact ⟨m, mem_updateBy.mpr ⟨m, hmmem, (if_neg hmne).symm⟩, hmid, d2, hd2, hd2id⟩
    · rw [if_neg hk] at hnidx ⊢
      obtain ⟨m, hmmem, hmid, d2, hd2, hd2id⟩ := h4b b hb nidx hnidx
      by_cases hk2 : nodeKey m = nid
      · have hme : m = n := pairwise_key_inj h1.2 m hmmem n hnmem
          (show nodeKey m = nodeKey n from hk2.trans hnkey.symm)
        rw [hme] at hmid hd2
        refine ⟨{ n with jobs := removeBy descId n.jobs jid, used := n.used - j.capa },
          mem_updateBy.mpr ⟨n, hnmem, (if_pos (show nodeKey n = nid from hnkey)).symm⟩,
          hmid, d2, ?_, hd2id⟩
        show d2 ∈ removeBy descId n.jobs jid
        refine (mem_removeBy_iff hsortn).mpr ⟨hd2, ?_⟩
        intro he
        exact hk (hd2id.symm.trans he)
      · exact ⟨m, mem_updateBy.mpr ⟨m, hmmem, (if_neg hk2).symm⟩, hmid, d2, hd2, hd2id⟩
  have hI5 : I5 t := by
    simp only [I5, hjobs1]
    intro jx hjx
    rcases mem_updateBy.mp hjx with ⟨b, hb, rfl⟩
    by_cases hk : jobId b = jid
    · rw [if_pos hk]
      dsimp only
      exact le_trans (List.Sublist.length_le (List.erase_sublist _ _)) (h5 b hb)
    · rw [if_neg hk]
      exact h5 b hb
  have hI6 : I6s t := by
    simp only [I6s, hnodes1]
    intro m hm
    rcases mem_updateBy.mp hm with ⟨a, ha, rfl⟩
    by_cases hk : nodeKey a = nid
    · rw [if_pos hk]
      dsimp only
      have hua := h6 a ha
      have hc0 : 0 ≤ j.capa := (haux j hjmem).2
      omega
    · rw [if_neg hk]
      exact h6 a ha
  have hIaux : InvAux t := by
    simp only [InvAux, hjobs1]
    intro jx hjx
    rcases mem_updateBy.mp hjx with ⟨b, hb, rfl⟩
    by_cases hk : jobId b = jid
    · rw [if_pos hk]
      exact ⟨(haux b hb).1.erase nid, (haux b hb).2⟩
    · rw [if_neg hk]
      exact haux b hb
  exact ⟨j, t, hj, hninj2, hcore, hjobs1, hnodes1,
    hI1, hI2, hI3, hI4a, hI4b, hI5, hI6, hIaux⟩

/-- An RmLink whose node or job is already gone is the silent no-op of
`doRmJob`: only the diff log is touched. -/
theorem rmLink_noop_inv {s : DataState} {jid nid : Nat} (hI : Inv s)
    (h : findBy nodeKey s.nodes nid = none ∨ findBy jobId s.jobs jid = none) :
    ∃ s1, doRmLinkOp s jid nid = some s1 ∧ Inv s1 := by
  have hcore : applyRmLinkCore s jid nid = some (s, none, none) := by
    rcases h with h | h
    · unfold applyRmLinkCore
      rw [h]
    · unfold applyRmLinkCore
      rw [h]
      cases findBy nodeKey s.nodes nid <;> rfl
  refine ⟨{ s with diffs := linkDiffApply (linkDiff opRmLink jid nid) (linkDiff opAddLink jid nid) s.diffs }, ?_, Inv_of_parts rfl rfl hI⟩
  simp only [doRmLinkOp, doRmLinkCore, hcore, Option.map_some']

/-- With a fresh key, the upsert of `doAddNode`/`doAddJob` is a plain
sorted insert. -/
theorem upsertBy_fresh {key : α → Nat} {l : List α} {a : α}
    (hfind : findBy key l (key a) = none) :
    upsertBy key l a = insertBy key l a := by
  unfold upsertBy insertBy
  cases hd : l.dropWhile (fun b => key b < key a) with
  | nil => rfl
  | cons b t =>
    dsimp only
    have hne : ¬ key b = key a := by
      intro he
      unfold findBy at hfind
      rw [hd] at hfind
      dsimp only at hfind
      rw [if_pos he] at hfind
      cases hfind
    rw [if_neg hne]

/-- AddNode for a fresh, unlinked record preserves all the invariants. -/
theorem addNode_inv {s : DataState} {n : node} (hI : Inv s)
    (hfind : findBy nodeKey s.nodes n.id = none) (hjobs0 : n.jobs = [])
    (hused0 : n.used = 0) (hcapa0 : 0 ≤ n.capa) :
    Inv (doAddNodeOp s n) := by
  obtain ⟨h1, h2, h3, h4a, h4b, h5, h6, haux⟩ := hI
  have hp2 : s.nodes.Pairwise (fun a b => nodeKey a < nodeKey b) := h1.2
  have hfresh : n.id ∉ s.nodes.map nodeKey := by
    intro hm
    rcases List.mem_map.mp hm with ⟨x, hx, hkx⟩
    rw [findBy_of_mem hp2 hx hkx] at hfind
    cases hfind
  have hnodes1 : (doAddNodeOp s n).nodes = insertBy nodeKey s.nodes n := by
    simp only [doAddNodeOp]
    exact upsertBy_fresh (show findBy nodeKey s.nodes (nodeKey n) = none from hfind)
  have hjobs1 : (doAddNodeOp s n).jobs = s.jobs := by simp only [doAddNodeOp]
  have hcapEq : ∀ id, capaOf (doAddNodeOp s n) id = capaOf s id := by
    intro id
    unfold capaOf
    rw [hjobs1]
  have hfun : (fun d : jobDesc => capaOf (doAddNodeOp s n) d.Id) =
      (fun d => capaOf s d.Id) := funext fun d => hcapEq d.Id
  have hI1 : I1 (doAddNodeOp s n) := by
    simp only [I1]
    rw [hjobs1, hnodes1]
    exact ⟨h1.1, insertBy_pairwise h1.2 hfresh⟩
  have hI2 : I2 (doAddNodeOp s n) := by
    simp only [I2]
    rw [hnodes1]
    intro m hm
    rcases mem_insertBy.mp hm with rfl | hm2
    · rw [hjobs0]
      exact List.Pairwise.nil
    · exact h2 m hm2
  have hI3 : I3 (doAddNodeOp s n) := by
    simp only [I3]
    rw [hnodes1]
    intro m hm
    rw [hfun]
    rcases mem_insertBy.mp hm with rfl | hm2
    · rw [hjobs0, hused0]
      rfl
    · exact h3 m hm2
  have hI4a : I4a (doAddNodeOp s n) := by
    simp only [I4a]
    rw [hnodes1, hjobs1]
    intro m hm d hdm
    rcases mem_insertBy.mp hm with rfl | hm2
    · rw [hjobs0] at hdm
      cases hdm
    · exact h4a m hm2 d hdm
  have hI4b : I4b (doAddNodeOp s n) := by
    simp only [I4b]
    rw [hnodes1, hjobs1]
    intro jx hjx nidx hnidx
    obtain ⟨m, hmmem, hmid, d2, hd2, hd2id⟩ := h4b jx hjx nidx hnidx
    exact ⟨m, mem_insertBy.mpr (Or.inr hmmem), hmid, d2, hd2, hd2id⟩
  have hI5 : I5 (doAddNodeOp s n) := by
    simp only [I5]
    rw [hjobs1]
    exact h5
  have hI6 : I6s (doAddNodeOp s n) := by
    simp only [I6s]
    rw [hnodes1]
    intro m hm
    rcases mem_insertBy.mp hm with rfl | hm2
    · rw [hused0]
      exact hcapa0
    · exact h6 m hm2
  have hIaux : InvAux (doAddNodeOp s n) := by
    simp only [InvAux]
    rw [hjobs1]
    exact haux
  exact ⟨hI1, hI2, hI3, hI4a, hI4b, hI5, hI6, hIaux⟩

/-- AddJob for a fresh, unlinked record preserves all the invariants. -/
theorem addJob_inv {s : DataState} {j : job} (hI : Inv s)
    (hfind : findBy jobId s.jobs (jobId j) = none) (hnodes0 : j.nodes = [])
    (hcapa0 : 0 ≤ j.capa) :
    Inv (doAddJobOp s j) := by
  obtain ⟨h1, h2, h3, h4a, h4b, h5, h6, haux⟩ := hI
  have hfresh : jobId j ∉ s.jobs.map jobId := by
    intro hm
    rcases List.mem_map.mp hm with ⟨x, hx, hkx⟩
    rw [findBy_of_mem h1.1 hx hkx] at hfind
    cases hfind
  have hjobs1 : (doAddJobOp s j).jobs = insertBy jobId s.jobs j := by
    simp only [doAddJobOp]
    exact upsertBy_fresh hfind
  have hnodes1 : (doAddJobOp s j).nodes = s.nodes := by simp only [doAddJobOp]
  have hI1 : I1 (doAddJobOp s j) := by
    simp only [I1]
    rw [hjobs1, hnodes1]
    exact ⟨insertBy_pairwise h1.1 hfresh, h1.2⟩
  have hI2 : I2 (doAddJobOp s j) := by
    simp only [I2]
    rw [hnodes1]
    exact h2
  have hcapEq : ∀ id, id ≠ jobId j → capaOf (doAddJobOp s j) id = capaOf s id := by
    intro id hne
    unfold capaOf
    rw [hjobs1, findBy_insertBy_of_ne h1.1 hfresh hne]
  have hI3 : I3 (doAddJobOp s j) := by
    simp only [I3]
    rw [hnodes1]
    intro m hm
    have hmapeq : List.map (fun d : jobDesc => capaOf (doAddJobOp s j) d.Id) m.jobs =
        List.map (fun d => capaOf s d.Id) m.jobs := by
      apply List.map_congr_left
      intro d hd
      apply hcapEq
      intro he
      obtain ⟨j3, hj3, hjid3, _⟩ := h4a m hm d hd
      exact hfresh (List.mem_map.mpr ⟨j3, hj3, by rw [hjid3, he]⟩)
    rw [hmapeq]
    exact h3 m hm
  have hI4a : I4a (doAddJobOp s j) := by
    simp only [I4a]
    rw [hnodes1, hjobs1]
    intro m hm d hdm
    obtain ⟨j3, hj3, hjid3, hin3⟩ := h4a m hm d hdm
    exact ⟨j3, mem_insertBy.mpr (Or.inr hj3), hjid3, hin3⟩
  have hI4b : I4b (doAddJobOp s j) := by
    simp only [I4b]
    rw [hnodes1, hjobs1]
    intro jx hjx nidx hnidx
    rcases mem_insertBy.mp hjx with rfl | hjx2
    · rw [hnodes0] at hnidx
      cases hnidx
    · exact h4b jx hjx2 nidx hnidx
  have hI5 : I5 (doAddJobOp s j) := by
    simp only [I5]
    rw [hjobs1]
    intro jx hjx
    rcases mem_insertBy.mp hjx with rfl | hjx2
    · rw [hnodes0]
      exact Nat.zero_le _
    · exact h5 jx hjx2
  have hI6 : I6s (doAddJobOp s j) := by
    simp only [I6s]
    rw [hnodes1]
    exact h6
  have hIaux : InvAux (doAddJobOp s j) := by
    simp only [InvAux]
    rw [hjobs1]
    intro jx hjx
    rcases mem_insertBy.mp hjx with rfl | hjx2
    · rw [hnodes0]
      exact ⟨List.nodup_nil, hcapa0⟩
    · exact haux jx hjx2
  exact ⟨hI1, hI2, hI3, hI4a, hI4b, hI5, hI6, hIaux⟩

/-- The in-place `lastSeen` update of `opNodeSeen` touches no field the
invariants read. -/
theorem nodeSeen_core_inv {s : DataState} {nid last : Nat} (hI : Inv s) :
    Inv { s with nodes := updateBy nodeKey s.nodes nid (fun m => { m with lastSeen := last }) } := by
  obtain ⟨h1, h2, h3, h4a, h4b, h5, h6, haux⟩ := hI
  refine ⟨⟨h1.1, updateBy_pairwise (fun a => rfl) h1.2⟩, ?_, ?_, ?_, ?_, h5, ?_, haux⟩
  · intro m hm
    rcases mem_updateBy.mp hm with ⟨a, ha, rfl⟩
    by_cases hk : nodeKey a = nid
    · rw [if_pos hk]; exact h2 a ha
    · rw [if_neg hk]; exact h2 a ha
  · intro m hm
    rcases mem_updateBy.mp hm with ⟨a, ha, rfl⟩
    by_cases hk : nodeKey a = nid
    · rw [if_pos hk]; exact h3 a ha
    · rw [if_neg hk]; exact h3 a ha
  · intro m hm d hdm
    rcases mem_updateBy.mp hm with ⟨a, ha, rfl⟩
    by_cases hk : nodeKey a = nid
    · rw [if_pos hk] at hdm ⊢
      exact h4a a ha d hdm
    · rw [if_neg hk] at hdm ⊢
      exact h4a a ha d hdm
  · intro jx hjx nidx hnidx
    obtain ⟨m, hmmem, hmid, d2, hd2, hd2id⟩ := h4b jx hjx nidx hnidx
    refine ⟨(if nodeKey m = nid then { m with lastSeen := last } else m),
      mem_updateBy.mpr ⟨m, hmmem, rfl⟩, ?_, ?_⟩
    · by_cases hk : nodeKey m = nid
      · rw [if_pos hk]; exact hmid
      · rw [if_neg hk]; exact hmid
    · by_cases hk : nodeKey m = nid
      · rw [if_pos hk]; exact ⟨d2, hd2, hd2id⟩
      · rw [if_neg hk]; exact ⟨d2, hd2, hd2id⟩
  · intro m hm
    rcases mem_updateBy.mp hm with ⟨a, ha, rfl⟩
    by_cases hk : nodeKey a = nid
    · rw [if_pos hk]; exact h6 a ha
    · rw [if_neg hk]; exact h6 a ha

/-- `opNodeSeen` preserves all the invariants. -/
theorem nodeSeen_inv {s : DataState} {nid last : Nat} (hI : Inv s) :
    Inv (doNodeSeenOp s nid last) := by
  unfold doNodeSeenOp
  cases hf : findBy nodeKey s.nodes nid with
  | none => exact hI
  | some n0 =>
    dsimp only
    exact Inv_of_parts rfl rfl (nodeSeen_core_inv hI)

/-- Dropping a node whose job list has been emptied (the state of the
`opRmNode` case after its cascade) preserves all the invariants,
whatever the diff scan leaves in the log. -/
theorem rmNode_finish {s : DataState} {nid : Nat} {n : node} {ds : List dataDiff}
    (hI : Inv s) (hn : findBy nodeKey s.nodes nid = some n) (he : n.jobs = []) :
    Inv { s with nodes := removeBy nodeKey s.nodes nid, diffs := ds } := by
  obtain ⟨h1, h2, h3, h4a, h4b, h5, h6, haux⟩ := hI
  obtain ⟨hnmem, hnkey⟩ := findBy_mem hn
  have hsub : List.Sublist (removeBy nodeKey s.nodes nid) s.nodes :=
    removeBy_sublist _ _
  have hI1 : I1 { s with nodes := removeBy nodeKey s.nodes nid, diffs := ds } := by
    simp only [I1]
    exact ⟨h1.1, h1.2.sublist hsub⟩
  have hI2 : I2 { s with nodes := removeBy nodeKey s.nodes nid, diffs := ds } := by
    simp only [I2]
    intro m hm
    exact h2 m (hsub.subset hm)
  have hI3 : I3 { s with nodes := removeBy nodeKey s.nodes nid, diffs := ds } := by
    simp only [I3]
    intro m hm
    exact h3 m (hsub.subset hm)
  have hI4a : I4a { s with nodes := removeBy nodeKey s.nodes nid, diffs := ds } := by
    simp only [I4a]
    intro m hm d hdm
    exact h4a m (hsub.subset hm) d hdm
  have hI4b : I4b { s with nodes := removeBy nodeKey s.nodes nid, diffs := ds } := by
    simp only [I4b]
    intro jx hjx nidx hnidx
    obtain ⟨m, hmmem, hmid, d2, hd2, hd2id⟩ := h4b jx hjx nidx hnidx
    have hmne : nodeKey m ≠ nid := by
      intro hket
      have hme : m = n := pairwise_key_inj h1.2 m hmmem n hnmem (hket.trans hnkey.symm)
      rw [hme, he] at hd2
      cases hd2
    exact ⟨m, (mem_removeBy_iff h1.2).mpr ⟨hmmem, hmne⟩, hmid, d2, hd2, hd2id⟩
  have hI6 : I6s { s with nodes := removeBy nodeKey s.nodes nid, diffs := ds } := by
    simp only [I6s]
    intro m hm
    exact h6 m (hsub.subset hm)
  exact ⟨hI1, hI2, hI3, hI4a, hI4b, h5, hI6, haux⟩

/-- Dropping a job whose node list has been emptied (the state of the
`opRmJob` case after its cascade) preserves all the invariants. -/
theorem rmJob_finish {s : DataState} {jid : Nat} {j : job} {ds : List dataDiff}
    (hI : Inv s) (hj : findBy jobId s.jobs jid = some j) (he : j.nodes = []) :
    Inv { s with jobs := removeBy jobId s.jobs jid, diffs := ds } := by
  obtain ⟨h1, h2, h3, h4a, h4b, h5, h6, haux⟩ := hI
  obtain ⟨hjmem, hjkey⟩ := findBy_mem hj
  have hsub : List.Sublist (removeBy jobId s.jobs jid) s.jobs :=
    removeBy_sublist _ _
  have hnod : ∀ m ∈ s.nodes, ∀ d ∈ m.jobs, d.Id ≠ jid := by
    intro m hm d hd he2
    obtain ⟨j3, hj3, hjid3, hin3⟩ := h4a m hm d hd
    have hj3e : j3 = j := pairwise_key_inj h1.1 j3 hj3 j hjmem
      (show jobId j3 = jobId j from (hjid3.trans he2).trans hjkey.symm)
    rw [hj3e, he] at hin3
    cases hin3
  have hI1 : I1 { s with jobs := removeBy jobId s.jobs jid, diffs := ds } := by
    simp only [I1]
    exact ⟨h1.1.sublist hsub, h1.2⟩
  have hI2 : I2 { s with jobs := removeBy jobId s.jobs jid, diffs := ds } := by
    simp only [I2]
    exact h2
  have hI3 : I3 { s with jobs := removeBy jobId s.jobs jid, diffs := ds } := by
    simp only [I3]
    intro m hm
    have hmapeq : List.map (fun d : jobDesc =>
        capaOf { s with jobs := removeBy jobId s.jobs jid, diffs := ds } d.Id) m.jobs =
        List.map (fun d => capaOf s d.Id) m.jobs := by
      apply List.map_congr_left
      intro d hd
      unfold capaOf
      dsimp only
      rw [findBy_removeBy_of_ne h1.1 (hnod m hm d hd)]
    rw [hmapeq]
    exact h3 m hm
  have hI4a : I4a { s with jobs := removeBy jobId s.jobs jid, diffs := ds } := by
    simp only [I4a]
    intro m hm d hdm
    obtain ⟨j3, hj3, hjid3, hin3⟩ := h4a m hm d hdm
    refine ⟨j3, (mem_removeBy_iff h1.1).mpr ⟨hj3, ?_⟩, hjid3, hin3⟩
    intro hket
    exact hnod m hm d hdm (hjid3.symm.trans hket)
  have hI4b : I4b { s with jobs := removeBy jobId s.jobs jid, diffs := ds } := by
    simp only [I4b]
    intro jx hjx nidx hnidx
    exact h4b jx ((mem_removeBy_iff h1.1).mp hjx).1 nidx hnidx
  have hI5 : I5 { s with jobs := removeBy jobId s.jobs jid, diffs := ds } := by
    simp only [I5]
    intro jx hjx
    exact h5 jx (hsub.subset hjx)
  have hIaux : InvAux { s with jobs := removeBy jobId s.jobs jid, diffs := ds } := by
    simp only [InvAux]
    intro jx hjx
    exact haux jx (hsub.subset hjx)
  exact ⟨hI1, hI2, hI3, hI4a, hI4b, hI5, h6, hIaux⟩

theorem lowerIdx_cons_self {key : α → Nat} (a : α) (t : List α) :
    lowerIdx key (a :: t) (key a) = 0 := by
  unfold lowerIdx
  rw [List.takeWhile_cons]
  simp

theorem removeBy_cons_self {key : α → Nat} (a : α) (t : List α) :
    removeBy key (a :: t) (key a) = t := by
  unfold removeBy
  have hdw : (a :: t).dropWhile (fun b => decide (key b < key a)) = a :: t := by
    rw [List.dropWhile_cons]
    simp
  rw [hdw]
  dsimp only
  have htw : (a :: t).takeWhile (fun b => decide (key b < key a)) = [] := by
    rw [List.takeWhile_cons]
    simp
  rw [if_pos rfl, htw]
  rfl

theorem rmNodeCascade_zero (nid k : Nat) (B : List jobDesc) (s : DataState) :
    rmNodeCascade nid k 0 B s = some s := rfl

theorem rmNodeCascade_step {s s1 : DataState} {o : Option Nat} {i : Nat}
    (nid k rest : Nat) (B : List jobDesc)
    (h : doRmLinkCore s (B.getD k default).Id nid = some (s1, some i, o)) :
    rmNodeCascade nid k (rest + 1) B s =
      rmNodeCascade nid (k + 1) rest
        (backingShift B i (((findBy nodeKey s.nodes nid).map
          (fun n : node => n.jobs.length)).getD 0)) s1 := by
  have e : rmNodeCascade nid k (rest + 1) B s =
      match doRmLinkCore s (B.getD k default).Id nid with
      | none => none
      | some (t, some i2, _) => rmNodeCascade nid (k + 1) rest
          (backingShift B i2 (((findBy nodeKey s.nodes nid).map
            (fun n : node => n.jobs.length)).getD 0)) t
      | some (t, none, _) => rmNodeCascade nid (k + 1) rest B t := rfl
  rw [e, h]

theorem rmJobCascade_zero (jid k : Nat) (B : List Nat) (s : DataState) :
    rmJobCascade jid k 0 B s = some s := rfl

theorem rmJobCascade_step {s s1 : DataState} {o : Option Nat} {i : Nat}
    (jid k rest : Nat) (B : List Nat)
    (h : doRmLinkCore s jid (B.getD k 0) = some (s1, o, some i)) :
    rmJobCascade jid k (rest + 1) B s =
      rmJobCascade jid (k + 1) rest
        (backingShift B i (((findBy jobId s.jobs jid).map
          (fun j : job => j.nodes.length)).getD 0)) s1 := by
  have e : rmJobCascade jid k (rest + 1) B s =
      match doRmLinkCore s jid (B.getD k 0) with
      | none => none
      | some (t, _, some i2) => rmJobCascade jid (k + 1) rest
          (backingShift B i2 (((findBy jobId s.jobs jid).map
            (fun j : job => j.nodes.length)).getD 0)) t
      | some (t, _, none) => rmJobCascade jid (k + 1) rest B t := rfl
  rw [e, h]

/-- One cascade step of `opRmNode`, packaged around `rmLink_inv`: the
new catalog entry of the node is the old one with the link's description
removed and its cost refunded. -/
theorem rmLink_node_step {s : DataState} {jid nid : Nat} {n : node}
    (hI : Inv s) (hn : findBy nodeKey s.nodes nid = some n)
    (hmem : jid ∈ n.jobs.map descId) :
    ∃ (j : job) (s1 : DataState), doRmLinkCore s jid nid =
        some (s1, some (lowerIdx descId n.jobs jid),
          some (j.nodes.findIdx (fun x => x = nid))) ∧
      Inv s1 ∧
      findBy nodeKey s1.nodes nid =
        some { n with jobs := removeBy descId n.jobs jid, used := n.used - j.capa } := by
  obtain ⟨j, s1, hj, hninj, hcore, hjobs1, hnodes1, hI1s⟩ := rmLink_inv hI hn hmem
  refine ⟨j, s1, hcore, hI1s, ?_⟩
  rw [hnodes1, findBy_updateBy (show ∀ n0 : node,
    nodeKey { n0 with jobs := removeBy descId n.jobs jid, used := n0.used - j.capa } =
      nodeKey n0 from fun n0 => rfl), hn]
  simp only [Option.map_some']
  rw [if_pos (show nodeKey n = nid from (findBy_mem hn).2)]

/-- One cascade step of `opRmJob`: the new catalog entry of the job is
the old one with the node id erased. -/
theorem rmLink_job_step {s : DataState} {jid nid : Nat} {n : node} {j : job}
    (hI : Inv s) (hn : findBy nodeKey s.nodes nid = some n)
    (hmem : jid ∈ n.jobs.map descId) (hj : findBy jobId s.jobs jid = some j) :
    ∃ s1, doRmLinkCore s jid nid =
        some (s1, some (lowerIdx descId n.jobs jid),
          some (j.nodes.findIdx (fun x => x = nid))) ∧
      Inv s1 ∧
      findBy jobId s1.jobs jid = some { j with nodes := j.nodes.erase nid } := by
  obtain ⟨j0, s1, hj0, hninj, hcore, hjobs1, hnodes1, hI1s⟩ := rmLink_inv hI hn hmem
  have hje : j = j0 := by rw [hj0] at hj; exact (Option.some.inj hj).symm
  subst hje
  refine ⟨s1, hcore, hI1s, ?_⟩
  rw [hjobs1, findBy_updateBy (show ∀ j1 : job,
    jobId { j1 with nodes := j1.nodes.erase nid } = jobId j1 from fun j1 => rfl), hj0]
  simp only [Option.map_some']
  rw [if_pos (show jobId j = jid from (findBy_mem hj0).2)]

/-- A node listed on a job exists in the node catalog and carries the
job's description (I4b read through the binary searches). -/
theorem job_link_node {s : DataState} {jid nid : Nat} {j : job}
    (hI : Inv s) (hj : findBy jobId s.jobs jid = some j) (hin : nid ∈ j.nodes) :
    ∃ m, findBy nodeKey s.nodes nid = some m ∧ jid ∈ m.jobs.map descId := by
  obtain ⟨h1, h2, h3, h4a, h4b, h5, h6, haux⟩ := hI
  obtain ⟨hjmem, hjkey⟩ := findBy_mem hj
  obtain ⟨m, hmmem, hmid, d2, hd2, hd2id⟩ := h4b j hjmem nid hin
  have hp2 : s.nodes.Pairwise (fun a b => nodeKey a < nodeKey b) := h1.2
  exact ⟨m, findBy_of_mem hp2 hmmem hmid,
    List.mem_map.mpr ⟨d2, hd2, hd2id.trans hjkey⟩⟩

/-- `opRmNode` for a present node with at most two links: the cascade
walks its stale slice header without harm, the node is dropped, and all
the invariants survive. -/
theorem rmNode_wf_inv {s : DataState} {nid : Nat} {n : node} (hI : Inv s)
    (hn : findBy nodeKey s.nodes nid = some n) (hlen : n.jobs.length ≤ 2) :
    ∃ s1, doRmNodeOp s nid = some s1 ∧ Inv s1 := by
  have hcas : ∃ s2 n2, rmNodeCascade nid 0 n.jobs.length n.jobs s = some s2 ∧
      Inv s2 ∧ findBy nodeKey s2.nodes nid = some n2 ∧ n2.jobs = [] := by
    rcases hjobs : n.jobs with _ | ⟨a, _ | ⟨b, _ | ⟨c, t3⟩⟩⟩
    · exact ⟨s, n, rmNodeCascade_zero nid 0 [] s, hI, hn, hjobs⟩
    · have hmem : descId a ∈ n.jobs.map descId := by
        rw [hjobs]
        exact List.mem_map.mpr ⟨a, List.mem_singleton_self a, rfl⟩
      obtain ⟨j, s1, hcore, hI1s, hn1⟩ := rmLink_node_step hI hn hmem
      have hc0 : doRmLinkCore s (([a].getD 0 default).Id) nid =
          some (s1, some (lowerIdx descId n.jobs (descId a)),
            some (j.nodes.findIdx (fun x => x = nid))) := hcore
      have hstep1 := rmNodeCascade_step nid 0 0 [a] hc0
      have hchain : rmNodeCascade nid 0 ([a].length) [a] s = some s1 :=
        hstep1.trans (rmNodeCascade_zero nid 1 _ s1)
      have he1 : removeBy descId n.jobs (descId a) = [] := by
        rw [hjobs]
        exact removeBy_cons_self a []
      rw [he1] at hn1
      exact ⟨s1, _, hchain, hI1s, hn1, rfl⟩
    · have hmem : descId a ∈ n.jobs.map descId := by
        rw [hjobs]
        exact List.mem_map.mpr ⟨a, List.mem_cons_self a [b], rfl⟩
      obtain ⟨j, s1, hcore, hI1s, hn1⟩ := rmLink_node_step hI hn hmem
      have hlow1 : lowerIdx descId n.jobs (descId a) = 0 := by
        rw [hjobs]
        exact lowerIdx_cons_self a [b]
      rw [hlow1] at hcore
      have hl1 : (((findBy nodeKey s.nodes nid).map
          (fun m => m.jobs.length)).getD 0) = 2 := by
        rw [hn]
        simp [hjobs]
      have hc0 : doRmLinkCore s (([a, b].getD 0 default).Id) nid =
          some (s1, some 0, some (j.nodes.findIdx (fun x => x = nid))) := hcore
      have hstep1 := rmNodeCascade_step nid 0 1 [a, b] hc0
      rw [hl1] at hstep1
      have hbs : backingShift [a, b] 0 2 = [b, b] := rfl
      rw [hbs] at hstep1
      have hrb1 : removeBy descId n.jobs (descId a) = [b] := by
        rw [hjobs]
        exact removeBy_cons_self a [b]
      rw [hrb1] at hn1
      have hmem2 : descId b ∈
          ({ n with jobs := [b], used := n.used - j.capa } : node).jobs.map descId :=
        List.mem_map.mpr ⟨b, List.mem_singleton_self b, rfl⟩
      obtain ⟨j2, s2, hcore2, hI2s, hn2⟩ := rmLink_node_step hI1s hn1 hmem2
      have hlow2 : lowerIdx descId
          ({ n with jobs := [b], used := n.used - j.capa } : node).jobs (descId b) = 0 :=
        lowerIdx_cons_self b []
      rw [hlow2] at hcore2
      have hc1 : doRmLinkCore s1 (([b, b].getD 1 default).Id) nid =
          some (s2, some 0, some (j2.nodes.findIdx (fun x => x = nid))) := hcore2
      have hstep2 := rmNodeCascade_step nid 1 0 [b, b] hc1
      have hchain : rmNodeCascade nid 0 ([a, b].length) [a, b] s = some s2 :=
        hstep1.trans (hstep2.trans (rmNodeCascade_zero nid 2 _ s2))
      have hrb2 : removeBy descId
          ({ n with jobs := [b], used := n.used - j.capa } : node).jobs (descId b) = [] :=
        removeBy_cons_self b []
      rw [hrb2] at hn2
      exact ⟨s2, _, hchain, hI2s, hn2, rfl⟩
    · exfalso
      rw [hjobs] at hlen
      simp only [List.length_cons] at hlen
      omega
  obtain ⟨s2, n2, hc, hI2c, hn2, he2⟩ := hcas
  refine ⟨{ s2 with nodes := removeBy nodeKey s2.nodes nid, diffs := rmNodeDiffApply nid s2.diffs }, ?_, rmNode_finish hI2c hn2 he2⟩
  simp only [doRmNodeOp, hn]
  rw [hc]

/-- `opRmJob` for a present job with at most two links. -/
theorem rmJob_wf_inv {s : DataState} {jid : Nat} {j : job} (hI : Inv s)
    (hj : findBy jobId s.jobs jid = some j) (hlen : j.nodes.length ≤ 2) :
    ∃ s1, doRmJobOp s jid = some s1 ∧ Inv s1 := by
  have hcas : ∃ s2 j2, rmJobCascade jid 0 j.nodes.length j.nodes s = some s2 ∧
      Inv s2 ∧ findBy jobId s2.jobs jid = some j2 ∧ j2.nodes = [] := by
    rcases hnodes : j.nodes with _ | ⟨p, _ | ⟨q, _ | ⟨r2, t3⟩⟩⟩
    · exact ⟨s, j, rmJobCascade_zero jid 0 [] s, hI, hj, hnodes⟩
    · obtain ⟨m, hm, hmem⟩ := job_link_node hI hj
        (by rw [hnodes]; exact List.mem_singleton_self p)
      obtain ⟨s1, hcore, hI1s, hj1⟩ := rmLink_job_step hI hm hmem hj
      have hfi : j.nodes.findIdx (fun x => x = p) = 0 := by
        rw [hnodes]
        simp [List.findIdx_cons]
      rw [hfi] at hcore
      have hc0 : doRmLinkCore s jid ([p].getD 0 0) =
          some (s1, some (lowerIdx descId m.jobs jid), some 0) := hcore
      have hstep1 := rmJobCascade_step jid 0 0 [p] hc0
      have hchain : rmJobCascade jid 0 ([p].length) [p] s = some s1 :=
        hstep1.trans (rmJobCascade_zero jid 1 _ s1)
      have he1 : j.nodes.erase p = [] := by
        rw [hnodes]
        simp
      rw [he1] at hj1
      exact ⟨s1, _, hchain, hI1s, hj1, rfl⟩
    · obtain ⟨m, hm, hmem⟩ := job_link_node hI hj
        (by rw [hnodes]; exact List.mem_cons_self p [q])
      obtain ⟨s1, hcore, hI1s, hj1⟩ := rmLink_job_step hI hm hmem hj
      have hfi : j.nodes.findIdx (fun x => x = p) = 0 := by
        rw [hnodes]
        simp [List.findIdx_cons]
      rw [hfi] at hcore
      have hl1 : (((findBy jobId s.jobs jid).map
          (fun j : job => j.nodes.length)).getD 0) = 2 := by
        rw [hj]
        simp [hnodes]
      have hc0 : doRmLinkCore s jid ([p, q].getD 0 0) =
          some (s1, some (lowerIdx descId m.jobs jid), some 0) := hcore
      have hstep1 := rmJobCascade_step jid 0 1 [p, q] hc0
      rw [hl1] at hstep1
      have hbs : backingShift [p, q] 0 2 = [q, q] := rfl
      rw [hbs] at hstep1
      have herase1 : j.nodes.erase p = [q] := by
        rw [hnodes]
        simp
      rw [herase1] at hj1
      obtain ⟨m2, hm2, hmem2⟩ := job_link_node hI1s hj1
        (show q ∈ ({ j with nodes := [q] } : job).nodes from List.mem_singleton_self q)
      obtain ⟨s2, hcore2, hI2s, hj2⟩ := rmLink_job_step hI1s hm2 hmem2 hj1
      have hfi2 : ({ j with nodes := [q] } : job).nodes.findIdx (fun x => x = q) = 0 := by
        simp [List.findIdx_cons]
      rw [hfi2] at hcore2
      have hc1 : doRmLinkCore s1 jid ([q, q].getD 1 0) =
          some (s2, some (lowerIdx descId m2.jobs jid), some 0) := hcore2
      have hstep2 := rmJobCascade_step jid 1 0 [q, q] hc1
      have hchain : rmJobCascade jid 0 ([p, q].length) [p, q] s = some s2 :=
        hstep1.trans (hstep2.trans (rmJobCascade_zero jid 2 _ s2))
      have herase2 : ({ j with nodes := [q] } : job).nodes.erase q = [] := by simp
      rw [herase2] at hj2
      exact ⟨s2, _, hchain, hI2s, hj2, rfl⟩
    · exfalso
      rw [hnodes] at hlen
      simp only [List.length_cons] at hlen
      omega
  obtain ⟨s2, j2, hc, hI2c, hj2e, he2⟩ := hcas
  refine ⟨{ s2 with jobs := removeBy jobId s2.jobs jid, diffs := rmJobDiffApply jid s2.diffs }, ?_, rmJob_finish hI2c hj2e he2⟩
  simp only [doRmJobOp, hj]
  rw [hc]

/-- One well-formed operation through `doOp` never panics and preserves
all the invariants. -/
theorem doOp_wf_inv {s : DataState} {o : Op} (hI : Inv s) (hW : WfOp s o) :
    ∃ s1, doOp s o = some s1 ∧ Inv s1 := by
  cases o with
  | addLink jid nid =>
    obtain ⟨hr, hc⟩ := hW
    exact ⟨_, rfl, addLink_inv hI hr hc⟩
  | rmLink jid nid =>
    rcases hW with h | h | h
    · exact rmLink_noop_inv hI (Or.inl h)
    · exact rmLink_noop_inv hI (Or.inr h)
    · cases hn : findBy nodeKey s.nodes nid with
      | none => exact rmLink_noop_inv hI (Or.inl hn)
      | some n =>
        rw [hn] at h
        simp only [Option.map_some', Option.getD_some] at h
        obtain ⟨j, s1, hj, hninj, hcore, hjobs1, hnodes1, hI1s⟩ := rmLink_inv hI hn h
        refine ⟨s1, ?_, hI1s⟩
        show doRmLinkOp s jid nid = some s1
        simp only [doRmLinkOp, hcore, Option.map_some']
  | addNode n =>
    obtain ⟨hf, hj0, hu0, hc0⟩ := hW
    exact ⟨_, rfl, addNode_inv hI hf hj0 hu0 hc0⟩
  | rmNode nid =>
    obtain ⟨hsome, hlen⟩ := hW
    cases hn : findBy nodeKey s.nodes nid with
    | none =>
      rw [hn] at hsome
      simp at hsome
    | some n =>
      rw [hn] at hlen
      simp only [Option.map_some', Option.getD_some] at hlen
      exact rmNode_wf_inv hI hn hlen
  | addJob j =>
    obtain ⟨hf, hn0, hc0⟩ := hW
    exact ⟨_, rfl, addJob_inv hI hf hn0 hc0⟩
  | rmJob jid =>
    obtain ⟨hsome, hlen⟩ := hW
    cases hj : findBy jobId s.jobs jid with
    | none =>
      rw [hj] at hsome
      simp at hsome
    | some j =>
      rw [hj] at hlen
      simp only [Option.map_some', Option.getD_some] at hlen
      exact rmJob_wf_inv hI hj hlen
  | nodeSeen nid last =>
    exact ⟨_, rfl, nodeSeen_inv hI⟩
  | addResults r =>
    exact ⟨_, rfl, Inv_of_parts rfl rfl hI⟩

/-- A sequence of requests is well formed when each operation is well
formed in the state the previous ones produced (`getD` is never taken:
under `WfOp` no operation panics). -/
def WfSeq : DataState → List Op → Prop
  | _, [] => True
  | s, o :: t => WfOp s o ∧ WfSeq ((doOp s o).getD s) t

instance instDecWfSeq : (s : DataState) → (l : List Op) → Decidable (WfSeq s l)
  | _, [] => inferInstanceAs (Decidable True)
  | s, o :: t =>
    @instDecidableAnd _ _ inferInstance (instDecWfSeq ((doOp s o).getD s) t)

theorem runOps_wf_inv : ∀ (ops : List Op) (s : DataState), Inv s → WfSeq s ops →
    ∀ k, ∃ s1, runOps s (ops.take k) = some s1 ∧ Inv s1
  | [], s, hI, _, k => ⟨s, by rw [List.take_nil]; rfl, hI⟩
  | _ :: _, s, hI, _, 0 => ⟨s, rfl, hI⟩
  | o :: t, s, hI, hW, k + 1 => by
    obtain ⟨hWo, hWt⟩ := hW
    obtain ⟨s1, hdo, hI1⟩ := doOp_wf_inv hI hWo
    have hWt1 : WfSeq s1 t := by rw [hdo] at hWt; exact hWt
    obtain ⟨s2, hrun, hI2⟩ := runOps_wf_inv t s1 hI1 hWt1 k
    refine ⟨s2, ?_, hI2⟩
    show runOps s (o :: t.take k) = some s2
    simp only [runOps, hdo]
    exact hrun

/-- C1 (amended): for every well-formed sequence of data-core requests —
AddNode/AddJob only installing fresh, unlinked records with non-negative
balances, AddLink only behind the scheduler's `runnable && canRun`
guard, RmLink only for linked pairs (or with a record already gone),
RmNode/RmJob only for present records holding at most two links, plus
any NodeSeen and result batches — `doOp` never panics and the invariants
I1 through I6 (together with the bookkeeping facts `InvAux`) hold after
every prefix: in particular every node's `used` is the sum of the
catalog costs of the jobs it lists (I3) and job/node membership is
symmetric (I4).  The well-formedness cannot be dropped: AddNode or
AddJob replacing a record that already has links breaks I4 (see the
counterexample). -/
theorem doOp_wf_sequences_preserve_invariants (s : DataState) (ops : List Op) (k : Nat)
    (hI : Inv s) (hW : WfSeq s ops) :
    ∃ s1, runOps s (ops.take k) = some s1 ∧ Inv s1 :=
  runOps_wf_inv ops s hI hW k

def c1wNode1 : node :=
  { id := 1, lastSeen := 0, capa := 10, used := 0, loc := 0, key := [], jobs := [] }

def c1wNode2 : node :=
  { id := 2, lastSeen := 0, capa := 5, used := 0, loc := 0, key := [], jobs := [] }

def c1wJob : job :=
  { desc := { Id := 1, Period := 60, Start := 0, Check := [] }, capa := 3, nodes := [],
    want := 2 }

/-- A well-formed run exercising every operation: two nodes and a job
appear, the job is placed on both nodes, one link is removed by hand,
a keep-alive fires, and the job and both nodes are removed again. -/
def c1wOps : List Op :=
  [.addNode c1wNode1, .addNode c1wNode2, .addJob c1wJob, .addLink 1 1, .addLink 1 2,
   .rmLink 1 1, .nodeSeen 2 99, .rmJob 1, .rmNode 1, .rmNode 2]

/-- C1 (witness): the run above is well formed from the empty state
— which satisfies the invariants — so the theorem yields a panic-free
execution with the invariants intact after all ten steps; concretely the
final state has empty catalogs again. -/
theorem doOp_wf_sequences_preserve_invariants_witness :
    (Inv emptyState ∧ WfSeq emptyState c1wOps) ∧
    (∃ s1, runOps emptyState (c1wOps.take 10) = some s1 ∧ Inv s1) ∧
    (runOps emptyState c1wOps).map (fun t => (t.jobs, t.nodes.map node.id)) =
      some ([], []) :=
  ⟨⟨by decide, by decide⟩,
   doOp_wf_sequences_preserve_invariants emptyState c1wOps 10 (by decide) (by decide),
   by decide⟩

end srv

namespace sched

/-! ## Node job scheduler (benchnode/sched/sched.go)

`New` computes the delay before the first firing from the period, the
offset (`Start`) and the current Unix time, all in nanoseconds
(`time.Duration` is an `int64`; Go's `%` is the truncated remainder,
`Int.tmod`). -/

/-- sched.go:58-61: `start := period - (nanonow-offset)%period`, bumped
by one period when below `time.Millisecond` (10^6 ns). -/
def newStart (period offset nanonow : Int) : Int :=
  let start := period - Int.tmod (nanonow - offset) period
  if start < 1000000 then start + period else start

/-- The wall-clock time of the first firing: now plus the initial
delay. -/
def firstFiring (period offset nanonow : Int) : Int :=
  nanonow + newStart period offset nanonow

/-- C8 (counterexample): with `Period` 60 s, `Start` 20 s and current
time 10 s, the truncated remainder makes `newStart` 70 s, so the first
firing is at 80 s — yet 20 s is a grid point (`N = 0`) lying at least
one millisecond in the future, so the code does not fire at the smallest
strictly-future grid time, and the delay differs from
`p − ((now − s) mod p) = 10 s` read with the mathematical remainder. -/
theorem newStart_future_start_counterexample :
    newStart (60 * 10 ^ 9) (20 * 10 ^ 9) (10 * 10 ^ 9) = 70 * 10 ^ 9 ∧
    firstFiring (60 * 10 ^ 9) (20 * 10 ^ 9) (10 * 10 ^ 9) = 80 * 10 ^ 9 ∧
    (20 * 10 ^ 9 : Int) = 0 * (60 * 10 ^ 9) + 20 * 10 ^ 9 ∧
    (10 * 10 ^ 9 : Int) + 10 ^ 6 ≤ 20 * 10 ^ 9 ∧
    (20 * 10 ^ 9 : Int) < 80 * 10 ^ 9 ∧
    (60 * 10 ^ 9 : Int) - ((10 * 10 ^ 9 - 20 * 10 ^ 9) % (60 * 10 ^ 9)) = 10 * 10 ^ 9 := by
  decide

/-- C8 (amended): whenever the period is at least one millisecond and
`Start` does not lie in the future (`s ≤ now`), the first firing time
`now + newStart` is the smallest time on the grid `N·p + s` that is at
least one millisecond away. -/
theorem newStart_grid_minimal (p s now : Int) (hp : 1000000 ≤ p) (hs : s ≤ now) :
    now + 1000000 ≤ firstFiring p s now ∧
    (firstFiring p s now - s) % p = 0 ∧
    ∀ T2 : Int, now + 1000000 ≤ T2 → (T2 - s) % p = 0 → firstFiring p s now ≤ T2 := by
  have hp0 : (0 : Int) < p := by omega
  have hd0 : (0 : Int) ≤ now - s := by omega
  have htm : Int.tmod (now - s) p = (now - s) % p := Int.tmod_eq_emod hd0 (le_of_lt hp0)
  set r := (now - s) % p with hr
  have hr0 : 0 ≤ r := Int.emod_nonneg _ (ne_of_gt hp0)
  have hrp : r < p := Int.emod_lt_of_pos _ hp0
  -- every point of the form now + (p - r) + t·p lies on the grid
  have hgrid : ∀ t : Int, (now + (p - r) + t * p - s) % p = 0 := by
    intro t
    have he : now + (p - r) + t * p - s = (now - s - r) + (t + 1) * p := by ring
    rw [he, Int.add_mul_emod_self]
    simp [hr, Int.sub_emod, Int.emod_emod_of_dvd]
  have hT : (firstFiring p s now = now + (p - r) ∧ 1000000 ≤ p - r) ∨
      (firstFiring p s now = now + (p - r) + p ∧ p - r < 1000000) := by
    unfold firstFiring newStart
    rw [htm]
    by_cases h : p - r < 1000000
    · right
      refine ⟨?_, h⟩
      simp only [if_pos h]
      ring
    · left
      refine ⟨?_, by omega⟩
      simp only [if_neg h]
  have hTg : (firstFiring p s now - s) % p = 0 := by
    rcases hT with ⟨h, _⟩ | ⟨h, _⟩
    · rw [h]; simpa using hgrid 0
    · rw [h]; simpa using hgrid 1
  refine ⟨?_, hTg, ?_⟩
  · rcases hT with ⟨h, hge⟩ | ⟨h, _⟩ <;> omega
  · intro T2 h2low h2grid
    by_contra hlt
    push_neg at hlt
    -- both lie on the grid, so p divides their gap
    have hdvd : p ∣ (firstFiring p s now - T2) := by
      have he : firstFiring p s now - T2 = (firstFiring p s now - s) - (T2 - s) := by ring
      rw [he]
      exact dvd_sub (Int.dvd_of_emod_eq_zero hTg) (Int.dvd_of_emod_eq_zero h2grid)
    have hgap : p ≤ firstFiring p s now - T2 := Int.le_of_dvd (by omega) hdvd
    -- but the firing time minus one period is below the 1 ms horizon
    have hlow : firstFiring p s now - p < now + 1000000 := by
      rcases hT with ⟨h, _⟩ | ⟨h, hb⟩ <;> omega
    omega

/-- C8 (witness): spec scenario 6 — period 3 s, offset 0, current time
10.2 s; the hypotheses hold and the first firing is the smallest
strictly-future grid point (12 s). -/
theorem newStart_grid_minimal_witness :
    (1000000 : Int) ≤ 3 * 10 ^ 9 ∧ (0 : Int) ≤ 10200000000 ∧
    ((10200000000 : Int) + 1000000 ≤ firstFiring (3 * 10 ^ 9) 0 10200000000 ∧
      (firstFiring (3 * 10 ^ 9) 0 10200000000 - 0) % (3 * 10 ^ 9) = 0 ∧
      ∀ T2 : Int, 10200000000 + 1000000 ≤ T2 → (T2 - 0) % (3 * 10 ^ 9) = 0 →
        firstFiring (3 * 10 ^ 9) 0 10200000000 ≤ T2) ∧
    firstFiring (3 * 10 ^ 9) 0 10200000000 = 12 * 10 ^ 9 :=
  ⟨by decide, by decide,
   newStart_grid_minimal (3 * 10 ^ 9) 0 10200000000 (by decide) (by decide),
   by decide⟩

end sched

namespace conn

/-! ## Session framing (lib/conn/conn.go)

The running hash is an HMAC-SHA-256 instance keyed once per connection.
The digest function is kept abstract: theorems quantify over a function
`hm : key → absorbed bytes → digest`, which is all the signing
discipline depends on.  Bytes are `Nat`s, the buffered writer is the
list of bytes handed to it. -/

/-- The hash state: the key installed by `SetKey` and the bytes absorbed
since the last reset. -/
structure HashState where
  key : List Nat
  data : List Nat
deriving DecidableEq, Repr, Inhabited

/-- `Conn`.  `h` is `none` until `SetKey` succeeds (a nil `hash.Hash`
interface in Go). -/
structure Conn where
  h : Option HashState
  chalThem : List Nat
  chalUs : List Nat
  wbuf : List Nat
deriving DecidableEq, Repr, Inhabited

inductive ConnErr where
  | errProto
  | errSig
  | errKeySize
deriving DecidableEq, Repr

/-- `WriteToHash`: append to the hash; a nil hash is left alone. -/
def WriteToHash (c : Conn) (buf : List Nat) : Conn :=
  match c.h with
  | none => c
  | some hs => { c with h := some { hs with data := hs.data ++ buf } }

/-- `Reset`: reset the hash (keeping the key); nil hash left alone. -/
def Reset (c : Conn) : Conn :=
  match c.h with
  | none => c
  | some hs => { c with h := some { hs with data := [] } }

/-- `Write`: append to the hash, then hand the bytes to the buffered
writer. -/
def Write (c : Conn) (buf : List Nat) : Conn :=
  let c1 := WriteToHash c buf
  { c1 with wbuf := c1.wbuf ++ buf }

/-- `Read` of a successful receive of exactly `buf`: the bytes read are
appended to the hash. -/
def Read (c : Conn) (buf : List Nat) : Conn := WriteToHash c buf

/-- `SetKey`: install a key of exactly 32 bytes, creating a fresh HMAC
instance; any other length is the key-size error. -/
def SetKey (c : Conn) (key : List Nat) : Except ConnErr Conn :=
  if key.length ≠ 32 then .error .errKeySize
  else .ok { c with h := some { key := key, data := [] } }

/-- `Sign(buf)`: absorb `buf`, then `chalUs`, append the digest to `buf`
and reset the hash.  `c.h.Sum` on a nil hash interface is a Go
nil-pointer panic, modelled as `none`. -/
def Sign (hm : List Nat → List Nat → List Nat) (c : Conn) (buf : List Nat) :
    Option (List Nat × Conn) :=
  let c1 := WriteToHash (WriteToHash c buf) c.chalUs
  match c1.h with
  | none => none
  | some hs => some (buf ++ hm hs.key hs.data, Reset c1)

/-- `SendSig`: guard against a nil hash with the protocol error (before
anything reaches the writer), otherwise sign an empty buffer and flush
the 32 digest bytes.  The inner `none` branch is unreachable: `Sign`
only fails on the nil hash that the guard already excluded. -/
def SendSig (hm : List Nat → List Nat → List Nat) (c : Conn) : Except ConnErr Conn :=
  match c.h with
  | none => .error .errProto
  | some _ =>
    match Sign hm c [] with
    | none => .error .errProto
    | some (sig, c1) => .ok { c1 with wbuf := c1.wbuf ++ sig }

/-- `CheckSig` after the 32 signature bytes `rsig` have been read from
the network (via `io.ReadFull` on the raw reader, so they are not
absorbed): mix `chalThem` into the hash, compute the digest, reset, and
compare.  The unguarded `c.h.Sum` call makes a nil hash a Go nil-pointer
panic (`none`); a digest mismatch is the signature error. -/
def CheckSig (hm : List Nat → List Nat → List Nat) (c : Conn) (rsig : List Nat) :
    Option (Except ConnErr Conn) :=
  let c1 := WriteToHash c c.chalThem
  match c1.h with
  | none => none
  | some hs =>
    if rsig = hm hs.key hs.data then some (.ok (Reset c1))
    else some (.error .errSig)

/-- C9: with the same 32-byte key installed on both sides, the same
bytes absorbed so far, and the signer's `chalUs` equal to the verifier's
`chalThem`, the signature `Sign` appends to a payload is exactly the
digest the peer's `CheckSig` computes after reading that payload — so
the round trip accepts — and `CheckSig` answers the signature-mismatch
error for every received 32-byte string other than that digest (hence
any mutation of the signature bytes is rejected, and a payload mutation
is rejected whenever the digests differ). -/
theorem sign_checkSig_roundtrip (hm : List Nat → List Nat → List Nat)
    (key data chal buf rsig : List Nat) (a b : Conn)
    (ha : a.h = some ⟨key, data⟩) (hauc : a.chalUs = chal)
    (hb : b.h = some ⟨key, data⟩) (hbct : b.chalThem = chal) :
    Sign hm a buf =
      some (buf ++ hm key ((data ++ buf) ++ chal),
        Reset (WriteToHash (WriteToHash a buf) a.chalUs)) ∧
    CheckSig hm (Read b buf) (hm key ((data ++ buf) ++ chal)) =
      some (.ok (Reset (WriteToHash (Read b buf) b.chalThem))) ∧
    (rsig ≠ hm key ((data ++ buf) ++ chal) →
      CheckSig hm (Read b buf) rsig = some (.error .errSig)) := by
  refine ⟨?_, ?_, ?_⟩
  · simp [Sign, WriteToHash, ha, hauc]
  · simp [CheckSig, Read, WriteToHash, hb, hbct]
  · intro hne
    simp only [List.append_assoc] at hne
    simp [CheckSig, Read, WriteToHash, hb, hbct, hne]

/-- C9 (witness): a concrete digest function, key and transcript on
which the round trip accepts and a flipped signature is rejected. -/
theorem sign_checkSig_roundtrip_witness :
    (({ h := some ⟨[7], [1]⟩, chalThem := [], chalUs := [2], wbuf := [] } : Conn).h =
        some ⟨[7], [1]⟩) ∧
    (Sign (fun k d => k ++ d) { h := some ⟨[7], [1]⟩, chalThem := [], chalUs := [2], wbuf := [] }
        [3] = some ([3] ++ ([7] ++ (([1] ++ [3]) ++ [2])),
          Reset (WriteToHash (WriteToHash
            { h := some ⟨[7], [1]⟩, chalThem := [], chalUs := [2], wbuf := [] } [3]) [2])) ∧
      CheckSig (fun k d => k ++ d)
        (Read { h := some ⟨[7], [1]⟩, chalThem := [2], chalUs := [], wbuf := [] } [3])
        ([7] ++ (([1] ++ [3]) ++ [2])) =
        some (.ok (Reset (WriteToHash
          (Read { h := some ⟨[7], [1]⟩, chalThem := [2], chalUs := [], wbuf := [] } [3]) [2]))) ∧
      ([9] ≠ [7] ++ (([1] ++ [3]) ++ [2]) →
        CheckSig (fun k d => k ++ d)
          (Read { h := some ⟨[7], [1]⟩, chalThem := [2], chalUs := [], wbuf := [] } [3])
          [9] = some (.error .errSig))) :=
  ⟨rfl,
   by
    have h := sign_checkSig_roundtrip (fun k d => k ++ d) [7] [1] [2] [3] [9]
      { h := some ⟨[7], [1]⟩, chalThem := [], chalUs := [2], wbuf := [] }
      { h := some ⟨[7], [1]⟩, chalThem := [2], chalUs := [], wbuf := [] }
      rfl rfl rfl rfl
    simpa using h⟩

/-- C10: on a `Conn` whose hash was never installed, `SendSig` answers
the protocol error before anything is written, while `CheckSig` — whose
only nil guard sits inside `WriteToHash` — reads its 32 bytes and then
calls `Sum` on the nil hash: a Go nil-pointer panic, modelled as
`none`. -/
theorem sendSig_checkSig_nil_hash (hm : List Nat → List Nat → List Nat)
    (c : Conn) (rsig : List Nat) (hc : c.h = none) :
    SendSig hm c = .error .errProto ∧ CheckSig hm c rsig = none := by
  constructor
  · simp [SendSig, hc]
  · simp [CheckSig, WriteToHash, hc]

/-- C10 (witness): the freshly wrapped connection (no `SetKey` yet). -/
theorem sendSig_checkSig_nil_hash_witness :
    (({ h := none, chalThem := [], chalUs := [], wbuf := [] } : Conn).h = none) ∧
    (SendSig (fun k d => k ++ d) { h := none, chalThem := [], chalUs := [], wbuf := [] } =
        .error .errProto ∧
      CheckSig (fun k d => k ++ d) { h := none, chalThem := [], chalUs := [], wbuf := [] }
        (List.replicate 32 0) = none) :=
  ⟨rfl, sendSig_checkSig_nil_hash (fun k d => k ++ d) _ (List.replicate 32 0) rfl⟩

end conn

namespace bnode

/-! ## Node-side persistence and session trim (benchnode/proto.go,
node db file)

Timestamps are `uint64` nanoseconds; Go's unsigned subtraction wraps
modulo 2^64. -/

def u64 : Nat := 2 ^ 64

/-- `uint64(time.Hour) * 2` in nanoseconds. -/
def hour2 : Nat := 2 * 3600 * 1000000000

/-- `uint64` subtraction `a - b` with wrap-around. -/
def u64sub (a b : Nat) : Nat := (a + (u64 - b % u64)) % u64

/-- One row of the node's `results` table. -/
structure resultRow where
  id : Nat
  start : Nat
  duration : Nat
  flags : Int
  err : String
  result : String
deriving DecidableEq, Repr, Inhabited

/-- `deleteResults(till)`: `DELETE FROM results WHERE start < ?`
(node db file, `dbDeleteResults`); the rows that survive are those with
`start ≥ till`. -/
def deleteResults (till : Nat) (rows : List resultRow) : List resultRow :=
  rows.filter (fun r => decide (till ≤ r.start))

/-- The timestamp logic of `sendLogs` (benchnode/proto.go:63-82): abort
with the future-timestamp error when the received `lastSeen` is ahead of
the local clock; otherwise send the batch, clamp
`then` down to `now − 2h` when it exceeds that value, and delete the
persisted results below the clamped bound. -/
def sendLogsTrim (lastSeen now : Nat) (rows : List resultRow) : Option (List resultRow) :=
  if lastSeen > now then none
  else
    let bound := if lastSeen > u64sub now hour2 then u64sub now hour2 else lastSeen
    some (deleteResults bound rows)

def c3Row : resultRow :=
  { id := 1, start := 1, duration := 0, flags := 0, err := "", result := "" }

/-- C3 (counterexample): with `lastSeen = 0` and `now` = 3 h, the code's
bound is `min(lastSeen, now − 2h) = 0`, so a result that started at 1 ns
survives — although it is older than `max(lastSeen, now − 2h) = 1 h`,
which the claim says is deleted. -/
theorem sendLogsTrim_keeps_result_claimed_deleted :
    sendLogsTrim 0 10800000000000 [c3Row] = some [c3Row] ∧
    c3Row.start < max 0 (10800000000000 - hour2) := by decide

/-- C3 (amended): on a successful session with `lastSeen ≤ now`,
`now` at least two hours past the epoch and below 2^64, the node deletes
exactly the persisted results older than `min(lastSeen, now − 2h)` —
sent results are trimmed only once they also fall outside the two-hour
retention window, and nothing newer than that bound is deleted. -/
theorem sendLogsTrim_min_bound (lastSeen now : Nat) (rows : List resultRow)
    (h1 : lastSeen ≤ now) (h2 : hour2 ≤ now) (h3 : now < u64) :
    sendLogsTrim lastSeen now rows =
      some (rows.filter (fun r => decide (min lastSeen (now - hour2) ≤ r.start))) := by
  have hsub : u64sub now hour2 = now - hour2 := by
    unfold u64sub u64 hour2 at *
    omega
  unfold sendLogsTrim
  rw [if_neg (by omega : ¬ lastSeen > now)]
  have hb : (if lastSeen > u64sub now hour2 then u64sub now hour2 else lastSeen) =
      min lastSeen (now - hour2) := by
    rw [hsub]
    split <;> omega
  rw [hb]
  rfl

def c3RowA : resultRow :=
  { id := 1, start := 3, duration := 0, flags := 0, err := "", result := "" }

def c3RowB : resultRow :=
  { id := 2, start := 7, duration := 0, flags := 0, err := "", result := "" }

/-- C3 (witness): concrete session where the hypotheses hold; the old
result is trimmed and the one inside the bound survives. -/
theorem sendLogsTrim_min_bound_witness :
    (5 : Nat) ≤ hour2 + 10 ∧ hour2 ≤ hour2 + 10 ∧ hour2 + 10 < u64 ∧
    sendLogsTrim 5 (hour2 + 10) [c3RowA, c3RowB] =
      some ([c3RowA, c3RowB].filter
        (fun r => decide (min 5 (hour2 + 10 - hour2) ≤ r.start))) :=
  ⟨by decide, by decide, by decide,
   sendLogsTrim_min_bound 5 (hour2 + 10) _ (by decide) (by decide) (by decide)⟩

/-! ## Node job list merge (part_002)

`jobDesc` on the node carries the running scheduler task in `s`; task
identity is tracked as a numeric tag (`none` = not running). -/

structure jobDesc where
  Id : Nat
  Period : Int
  Start : Int
  Check : List String
  s : Option Nat
deriving DecidableEq, Repr, Inhabited

/-- `check.IsValid` (lib/check): run the two-level dispatch in dry-run
mode and test the failure flag.  The map lookups and the per-family
arity checks (`dns` one argument, `http get`/`http head` one argument)
are inlined; the inner `runCheck` length guard coincides with the arity
test. -/
def IsValid (s : List String) : Bool :=
  if s.length < 2 then false
  else
    match s with
    | "http" :: "get" :: args => args.length = 1
    | "http" :: "head" :: args => args.length = 1
    | "dns" :: args => args.length = 1
    | _ => false

/-- `jobsEqual` (part_002:128-139): ids, periods, starts and the check
token lists coincide (the task field is not compared). -/
def jobsEqual (a b : jobDesc) : Bool :=
  a.Id == b.Id && a.Period == b.Period && a.Start == b.Start && a.Check == b.Check

/-- `sort.Sort(newjobs)`: sorts by id (`Less` compares `Id`).  Go's
sort is an unstable in-place quicksort; it is modelled by an insertion
sort, which agrees with it on lists without duplicate ids. -/
def insertSorted (d : jobDesc) : List jobDesc → List jobDesc
  | [] => [d]
  | x :: t => if d.Id ≤ x.Id then d :: x :: t else x :: insertSorted d t

def sortJobs : List jobDesc → List jobDesc
  | [] => []
  | x :: t => insertSorted x (sortJobs t)

/-- The pairing loop of `mergeJobs` (part_002:146-165).  The guard of
the first case compares `jobs[i].Id` with `jobs[j].Id` — the old list
indexed by `j`, exactly as the source spells it — and `jobs[j]` can in
principle be out of range (`none` = Go index panic).  In the equal
branch the task is transferred (`newjobs[j].s, jobs[i].s = jobs[i].s,
nil`) and — as in the source — `status[j]` is left untouched.  Every
iteration advances `i` or `j`, so the loop runs at most
`len(old) + len(new)` times; the structural `fuel` argument, always
supplied above that bound, carries the termination. -/
def mergeLoop (fuel : Nat) (old new : List jobDesc) (status : List Bool) (updated : Bool)
    (i j : Nat) : Option (List jobDesc × List jobDesc × List Bool × Bool) :=
  match fuel with
  | 0 => none
  | fuel + 1 =>
    if i < old.length ∧ j < new.length then
      match old[i]?, old[j]?, new[j]? with
      | some oi, some oj, some nj =>
        if oi.Id = oj.Id then
          if jobsEqual oi nj then
            mergeLoop fuel (old.set i { oi with s := none }) (new.set j { nj with s := oi.s })
              status updated (i + 1) (j + 1)
          else
            mergeLoop fuel old new (status.set j (IsValid nj.Check)) true (i + 1) (j + 1)
        else if oi.Id < nj.Id then
          mergeLoop fuel old new status true (i + 1) j
        else
          mergeLoop fuel old new (status.set j (IsValid nj.Check)) true i (j + 1)
      | _, _, _ => none
    else some (old, new, status, updated)

/-- The compaction loop of `mergeJobs` (part_002:169-176): walk the
status flags, keeping the element at the write position on `true` and
removing it on `false`.  (The removal index never reaches the end of the
list because every `false` consumes an element.) -/
def compact (status : List Bool) (l : List jobDesc) (j : Nat) : List jobDesc :=
  match status with
  | [] => l
  | b :: rest =>
    if b then compact rest l (j + 1)
    else compact rest (l.take j ++ l.drop (j + 1)) j

/-- `startJobs`: schedule every job without a running task; fresh task
tags (distinct from all transferred ones below 1000) stand for the new
scheduler instances. -/
def startJobs (l : List jobDesc) : List jobDesc :=
  l.mapIdx (fun k d => if d.s = none then { d with s := some (1000 + k) } else d)

/-- `mergeJobs` (part_002:141-186): sort the received list, run the
pairing loop, drop the entries whose status flag stayed false, stop the
old tasks still marked running (`killJobs`), install the compacted list
and start its taskless entries.  The DB `replaceJobs` transaction is
taken as succeeding.  Returns the final live list and the stopped task
tags. -/
def mergeJobs (old new : List jobDesc) : Option (List jobDesc × List Nat) :=
  let newSorted := sortJobs new
  let status := List.replicate newSorted.length false
  match mergeLoop (old.length + newSorted.length + 1) old newSorted status false 0 0 with
  | none => none
  | some (old2, new2, status2, _) =>
    let live := compact status2 new2 0
    let stopped := (old2.filter (fun d => d.s.isSome)).map (fun d => d.s.getD 0)
    some (startJobs live, stopped)

/-- The valid entries of a received job list (the set the claim says
must be live after the merge). -/
def validEntries (l : List jobDesc) : List jobDesc := l.filter (fun d => IsValid d.Check)

def c2Old : List jobDesc :=
  [{ Id := 1, Period := 60, Start := 0, Check := ["dns", "x.y"], s := some 7 }]

def c2New : List jobDesc :=
  [{ Id := 1, Period := 60, Start := 0, Check := ["dns", "x.y"], s := none }]

/-- C2: the claim says that after `mergeJobs(new)` the live set is
exactly the valid entries of `new` and unchanged entries keep their task
instance.  In the code the equal branch of the pairing loop never sets
`status[j]`, so an entry of `new` identical to a running job keeps a
false flag and the compaction loop deletes it: with one unchanged valid
job the live set comes back empty instead of `[job 1]`, and the
transferred task 7 is not even stopped (its slot in the old list was
cleared by the transfer) — it runs on, untracked. -/
theorem mergeJobs_drops_unchanged_job :
    mergeJobs c2Old c2New = some ([], []) ∧
    validEntries c2New = c2New ∧
    c2New ≠ [] := by decide

end bnode


